import Mathlib

/-!
Shallow embedding of `mackerel.py`: a program that builds a graph of London
tube stations and line adjacencies from the TfL API, filters stations by a
letter-avoidance predicate, and exhaustively searches for the longest simple
paths (no repeated directed adjacency) in the filtered graph.

Python dicts are modelled as insertion-ordered association lists; the usual
dict invariant (each key occurs at most once) is an explicit hypothesis where
a theorem needs it.  Python strings are modelled as `List Char`.
-/

set_option maxHeartbeats 1000000

/-- `string_to_bit_field` from the source: a 26-bit letter-presence mask.
The source lowercases the string and, for each code point from `ord 'a'` to
`ord 'z'`, sets bit `char - ord 'a'` when that character occurs in the
lowered string. -/
def string_to_bit_field (string : List Char) : Nat :=
  let lowered := string.map Char.toLower
  (List.range' 97 26).foldl
    (fun bit_field char =>
      if lowered.contains (Char.ofNat char) then
        bit_field ||| (1 <<< (char - 97))
      else bit_field)
    0

/-- `TubeStation` from the source. -/
structure TubeStation where
  station_id : String
  name : List Char
  bit_field : Nat
deriving DecidableEq, Repr

/-- `TubeStationAdjacency` from the source: one directed, single-line step
from `station_a_id` to `station_b_id`. -/
structure TubeStationAdjacency where
  line : String
  station_a_id : String
  station_b_id : String
deriving DecidableEq, Repr

/-- The adjacency structure: a dict keyed by from-station id, whose values
are dicts keyed by to-station id holding the adjacency records. -/
abbrev AdjMap := List (String × List (String × TubeStationAdjacency))

/-- `TubeGraph` from the source. -/
structure TubeGraph where
  stations : List (String × TubeStation)
  adjacencies : AdjMap
deriving DecidableEq, Repr

/-- Python `key in dict`. -/
def hasKey {β : Type} (m : List (String × β)) (k : String) : Bool :=
  (List.lookup k m).isSome

/-- Python `dict[key] = value`: update in place when the key is present
(keeping its position), append otherwise. -/
def dictSet {β : Type} (m : List (String × β)) (k : String) (v : β) :
    List (String × β) :=
  match m with
  | [] => [(k, v)]
  | (k', v') :: rest =>
      if k' = k then (k, v) :: rest else (k', v') :: dictSet rest k v

/-- All adjacency records of the map, in iteration order
(`for i in adjacencies.values(): for adjacency in i.values()`). -/
def allValues (adjacencies : AdjMap) : List TubeStationAdjacency :=
  (adjacencies.map (fun i => i.2.map (fun q => q.2))).flatten

/-- The records of the inner dict at a key
(`adjacencies[k].values()`); empty when the key is missing, which in the
source raises `KeyError` — every theorem about it carries the invariant that
rules the missing-key case out. -/
def innerValues (adjacencies : AdjMap) (k : String) : List TubeStationAdjacency :=
  ((List.lookup k adjacencies).getD []).map (fun q => q.2)

/-- `banned_string_filter` from the source. -/
def banned_string_filter (banned_string : List Char) (tube_station : TubeStation) :
    Bool :=
  string_to_bit_field banned_string &&& tube_station.bit_field == 0

/-- Python `s.replace(old, new)` by fuel-indexed recursion (`fuel ≥ s.length`
makes the fuel invisible for a nonempty `old`): scan left to right, and at
each position replace a match of `old` and continue after it. -/
def pyreplaceFuel (old new : List Char) : Nat → List Char → List Char
  | 0, s => s
  | _ + 1, [] => []
  | fuel + 1, c :: rest =>
      if old.isPrefixOf (c :: rest) then
        new ++ pyreplaceFuel old new fuel ((c :: rest).drop old.length)
      else c :: pyreplaceFuel old new fuel rest

/-- Python `s.replace(old, new)` for nonempty `old` (the one use site passes
the fixed nonempty suffix `" Underground Station"`). -/
def pyreplace (s old new : List Char) : List Char :=
  pyreplaceFuel old new s.length s

/-- The fixed suffix the source removes from raw display names. -/
def undergroundSuffix : List Char := " Underground Station".toList

/-- The pure content of `get_tube_station`: the station-details API call is
abstracted into its response's `commonName` field; the rest is the source
verbatim (`replace` of the mode suffix, then the letter mask). -/
def get_tube_station (station_id : String) (commonName : List Char) :
    String × TubeStation :=
  let station_name := pyreplace commonName undergroundSuffix []
  let station_bit_field := string_to_bit_field station_name
  (station_id, ⟨station_id, station_name, station_bit_field⟩)

/-- Modelled from the spec (§4.3 step 5 / claim C6, for comparison with the
source): strip the fixed suffix from the END of the raw name when present,
leaving every other character unchanged. -/
def stripEndSuffix (raw suffix : List Char) : List Char :=
  if suffix.isSuffixOf raw then raw.take (raw.length - suffix.length) else raw

/-- One `adjacencies[station_a_id][station_b_id] = TubeStationAdjacency(...)`
step of the source, preceded by `if station_a_id not in adjacencies:
adjacencies[station_a_id] = {}`. -/
def setAdj (adjacencies : AdjMap) (a b : String) (v : TubeStationAdjacency) :
    AdjMap :=
  let adjacencies := if hasKey adjacencies a then adjacencies
                     else dictSet adjacencies a []
  let inner := (List.lookup a adjacencies).getD []
  dictSet adjacencies a (dictSet inner b v)

/-- `get_all_tube_station_adjacencies` from the source, with the two API
calls abstracted into the input: one `(line_id, line_name, ordered stops)`
triple per line.  The loop `for i in range(len(line_stations) - 1)` over
index pairs `(i, i+1)` is the iteration over consecutive stop pairs,
`line_stations.zip line_stations.tail`.  For each pair the source inserts
the records `A→B` and `B→A` (the self-loop lines are commented out in the
source and hence absent here). -/
def get_all_tube_station_adjacencies
    (lines : List (String × String × List String)) : AdjMap :=
  lines.foldl
    (fun adjacencies line =>
      let line_name := line.2.1
      let line_stations := line.2.2
      (line_stations.zip line_stations.tail).foldl
        (fun adjacencies pair =>
          let station_a_id := pair.1
          let station_b_id := pair.2
          let adjacencies := setAdj adjacencies station_a_id station_b_id
            ⟨line_name, station_a_id, station_b_id⟩
          setAdj adjacencies station_b_id station_a_id
            ⟨line_name, station_b_id, station_a_id⟩)
        adjacencies)
    []

/-- The adjacency-rebuilding loop of `filter_tube_graph`: for each surviving
station id `a` (in order) read `tube_graph.adjacencies[a]` — `none` models
the `KeyError` when the id has no adjacency entry — and keep only the inner
entries whose key survives the station filter. -/
def filterAdjacencies (g_adjacencies : AdjMap)
    (stations : List (String × TubeStation)) :
    List (String × TubeStation) → Option AdjMap
  | [] => some []
  | (a, _) :: rest =>
      match List.lookup a g_adjacencies with
      | none => none
      | some inner =>
          match filterAdjacencies g_adjacencies stations rest with
          | none => none
          | some tailMap =>
              some ((a, inner.filter (fun q => hasKey stations q.1)) :: tailMap)

/-- `filter_tube_graph` from the source; `none` models the `KeyError` raised
when a surviving station id has no entry in the adjacency dict. -/
def filter_tube_graph (tube_graph : TubeGraph)
    (filter : TubeStation → Bool) : Option TubeGraph :=
  match filterAdjacencies tube_graph.adjacencies
      (tube_graph.stations.filter (fun p => filter p.2))
      (tube_graph.stations.filter (fun p => filter p.2)) with
  | none => none
  | some adjacencies =>
      some ⟨tube_graph.stations.filter (fun p => filter p.2), adjacencies⟩

/-- Total number of directed adjacency records stored in the map. -/
def numEntries (adjacencies : AdjMap) : Nat := (allValues adjacencies).length

/-- `longest_paths` from the source, indexed by fuel that bounds the
recursion depth (each recursive call extends `path` by one record; `none`
means the fuel ran out).  With an empty path every record of the map seeds a
length-1 path; with a nonempty path ending in `last`, every record of
`adjacencies[last.station_b_id]` not already in the path (Python `not in`,
value comparison) extends it.  The call returns every enumerated path of
maximal length, the current `path` itself included. -/
def lpFuel (adjacencies : AdjMap) :
    List TubeStationAdjacency → Nat → Option (List (List TubeStationAdjacency))
  | _, 0 => none
  | path, fuel + 1 =>
    let candidates : List TubeStationAdjacency :=
      match path.getLast? with
      | none => allValues adjacencies
      | some last =>
          (innerValues adjacencies last.station_b_id).filter
            (fun nxt => !(path.contains nxt))
    match candidates.mapM (fun a => lpFuel adjacencies (path ++ [a]) fuel) with
    | none => none
    | some results =>
        let all_paths := path :: results.flatten
        let max_length := (all_paths.map List.length).foldl Nat.max 0
        some (all_paths.filter (fun x => x.length == max_length))

/-- `longest_paths` from the source: the fueled search run with enough fuel
(`numEntries + 1` — the no-repeat rule bounds the recursion depth by the
number of records; `lpFuel_eq_longest_paths` below proves any larger fuel
gives the same value, so the fuel is invisible). -/
def longest_paths (adjacencies : AdjMap) (path : List TubeStationAdjacency) :
    List (List TubeStationAdjacency) :=
  (lpFuel adjacencies path (numEntries adjacencies + 1)).getD []

/-- `limit_concurrency` from the source: drain the operation stream in
batches of `concurrency_limit`; `asyncio.gather` preserves input order, so a
batch contributes its results in order.  The async effects are invisible to
the value model, leaving the batched concatenation. -/
def limit_concurrency {α : Type} (aws : List α) (concurrency_limit : Nat) :
    List α :=
  if (aws.take concurrency_limit).isEmpty then []
  else aws.take concurrency_limit ++
    limit_concurrency (aws.drop concurrency_limit) concurrency_limit
termination_by aws.length
decreasing_by
  rename_i h
  rw [List.isEmpty_eq_true] at h
  have h2 : aws ≠ [] := by rintro rfl; exact h (by simp)
  have h1 : concurrency_limit ≠ 0 := by rintro rfl; exact h (by simp)
  have h3 : 0 < aws.length := List.length_pos.mpr h2
  rw [List.length_drop]
  omega

/-- The batch decomposition performed by `limit_concurrency`. -/
def batches {α : Type} (aws : List α) (concurrency_limit : Nat) :
    List (List α) :=
  if (aws.take concurrency_limit).isEmpty then []
  else aws.take concurrency_limit ::
    batches (aws.drop concurrency_limit) concurrency_limit
termination_by aws.length
decreasing_by
  rename_i h
  rw [List.isEmpty_eq_true] at h
  have h2 : aws ≠ [] := by rintro rfl; exact h (by simp)
  have h1 : concurrency_limit ≠ 0 := by rintro rfl; exact h (by simp)
  have h3 : 0 < aws.length := List.length_pos.mpr h2
  rw [List.length_drop]
  omega

/-- `map_unordered` from the source. -/
def map_unordered {α β : Type} (func : α → β) (iterable : List α)
    (concurrency_limit : Nat) : List β :=
  limit_concurrency (iterable.map func) concurrency_limit

/-- The parts of a parsed JSON response body that `make_api_request`
inspects: whether a `statusCode` field is present, its value, and the
`message` field (consulted only on a 429).  The whole record is the parsed
body returned to the caller. -/
structure ApiResponse where
  hasStatusCode : Bool
  statusCode : Int
  message : List Char
deriving DecidableEq, Repr

/-- Decompose a string at the FIRST occurrence of `sep`: the part before it
and the part after it, or `none` when `sep` does not occur. -/
def splitFirst? (sep : List Char) : List Char → Option (List Char × List Char)
  | [] => none
  | c :: rest =>
      if sep.isPrefixOf (c :: rest) then some ([], (c :: rest).drop sep.length)
      else
        match splitFirst? sep rest with
        | none => none
        | some (pre, post) => some (c :: pre, post)

/-- Python `s.split(sep)[1]` for a nonempty `sep` occurring in `s`: the text
between the first occurrence of `sep` and the following one (to the end when
there is no second occurrence).  When `sep` does not occur the source raises
`IndexError`; this total model returns `[]` there and every theorem's
hypotheses put the call inside the defined case. -/
def split_index1 (s sep : List Char) : List Char :=
  match splitFirst? sep s with
  | none => []
  | some (_, post) =>
      match splitFirst? sep post with
      | none => post
      | some (pre, _) => pre

/-- Python `int` on the all-digit tokens the source feeds it. -/
def pyint (s : List Char) : Nat :=
  s.foldl (fun n c => 10 * n + (c.toNat - 48)) 0

/-- The literal the source splits the rate-limit message on. -/
def tryAgainSep : List Char := "Try again in ".toList

/-- `int(response["message"].split("Try again in ")[1].split(" ")[0])` from
the source (`.split(" ")[0]` of a string is its run of characters before the
first space). -/
def parseRetryDelay (message : List Char) : Nat :=
  pyint ((split_index1 message tryAgainSep).takeWhile (fun c => c ≠ ' '))

/-- The retry loop of `make_api_request`.  The transport is the list of
parsed JSON bodies successive attempts would receive; each attempt records
the issued request `(url, params)`.  A body with `statusCode == 429` is
never returned: its advised delay is slept and the identical request is
retried.  The result is `(requests issued, sleeps performed, returned
body)`; `none` models exhausting the transport while still rate-limited. -/
def apiRequestLoop (url : String) (params : List (String × String)) :
    List ApiResponse → Option (List (String × List (String × String)) × List Nat × ApiResponse)
  | [] => none
  | response :: rest =>
      if response.hasStatusCode && (response.statusCode == 429) then
        match apiRequestLoop url params rest with
        | none => none
        | some (calls, sleeps, final) =>
            some ((url, params) :: calls, parseRetryDelay response.message :: sleeps, final)
      else some ([(url, params)], [], response)

/-- `make_api_request` from the source: resolve the URL, merge the two
credential parameters with the explicit ones (explicit keys overriding), and
run the retry loop against the transport. -/
def make_api_request (transport : List ApiResponse) (app_id app_key : String)
    (endpoint : String) (params : List (String × String)) :
    Option (List (String × List (String × String)) × List Nat × ApiResponse) :=
  apiRequestLoop ("https://api.tfl.gov.uk/" ++ endpoint)
    (params.foldl (fun m p => dictSet m p.1 p.2)
      [("app_id", app_id), ("app_key", app_key)])
    transport

/-- Decimal digit characters of a positive number, most significant first. -/
def digitChars (n : Nat) : List Char :=
  ((Nat.digits 10 n).reverse).map (fun d => Char.ofNat (d + 48))

/-- Spec-side (claim C1 / spec §3 "Path"): a simple path of the adjacency
map is a sequence of records of the map in which each record's from-id
equals the previous record's to-id and no record value appears twice. -/
def isSimplePath (adjacencies : AdjMap) (p : List TubeStationAdjacency) : Prop :=
  (∀ r ∈ p, r ∈ allValues adjacencies) ∧
  List.Chain' (fun x y => y.station_a_id = x.station_b_id) p ∧
  p.Nodup

/-- Bool-level chaining test, the kernel-reducible mirror of `Chain'` used
only to decide `isSimplePath` on concrete inputs. -/
def chainedB : List TubeStationAdjacency → Bool
  | [] => true
  | [_] => true
  | x :: y :: rest => (y.station_a_id == x.station_b_id) && chainedB (y :: rest)

instance (adjacencies : AdjMap) (p : List TubeStationAdjacency) :
    Decidable (isSimplePath adjacencies p) :=
  decidable_of_iff
    ((∀ r ∈ p, r ∈ allValues adjacencies) ∧ chainedB p = true ∧ p.Nodup)
    (by
      unfold isSimplePath
      refine and_congr Iff.rfl (and_congr ?_ Iff.rfl)
      induction p with
      | nil => simp [chainedB]
      | cons x rest ih =>
          cases rest with
          | nil => simp [chainedB]
          | cons y t =>
              rw [chainedB, List.chain'_cons, Bool.and_eq_true, beq_iff_eq]
              exact and_congr Iff.rfl ih)

/-- Key/endpoint agreement (claim C10): every record stored at outer key `a`
and inner key `b` has from-id `a` and to-id `b`. -/
def Agreement (m : AdjMap) : Prop :=
  ∀ p ∈ m, ∀ q ∈ p.2, (q.2 : TubeStationAdjacency).station_a_id = p.1 ∧
    q.2.station_b_id = q.1

instance (m : AdjMap) : Decidable (Agreement m) := by
  unfold Agreement; infer_instance

/-- The extension relation explored by `longest_paths` from a nonempty
partial path: append records drawn from the inner dict at the last record's
to-id that do not already occur in the path. -/
inductive Reaches (adjacencies : AdjMap) (p : List TubeStationAdjacency) :
    List TubeStationAdjacency → Prop
  | refl : Reaches adjacencies p p
  | step {q : List TubeStationAdjacency} {last nxt : TubeStationAdjacency} :
      Reaches adjacencies p q → q.getLast? = some last →
      nxt ∈ innerValues adjacencies last.station_b_id → nxt ∉ q →
      Reaches adjacencies p (q ++ [nxt])

/-- Distinct records of the map not yet used by the path: the measure that
bounds the recursion depth of `longest_paths`. -/
def ValsLeft (adjacencies : AdjMap) (path : List TubeStationAdjacency) : Nat :=
  (((allValues adjacencies).dedup).filter (fun v => decide (v ∉ path))).length

/-- The end-to-end scenario of spec §8: station A is named "cat", B "dog",
C "bee"; each station's bit field is the mask of its name, as the assembly
phase computes it. -/
def scenarioStations : List (String × TubeStation) :=
  [("A", ⟨"A", "cat".toList, string_to_bit_field "cat".toList⟩),
   ("B", ⟨"B", "dog".toList, string_to_bit_field "dog".toList⟩),
   ("C", ⟨"C", "bee".toList, string_to_bit_field "bee".toList⟩)]

/-- The scenario graph: undirected edges A-B and B-C on line "X", stored as
two directed records each by the adjacency-assembly code. -/
def scenarioGraph : TubeGraph :=
  ⟨scenarioStations,
   get_all_tube_station_adjacencies [("line-x", "X", ["A", "B", "C"])]⟩

/-- An adjacency map whose records do not agree with their keys while still
satisfying the to-id-is-a-key invariant claim C1 assumes: both records sit
under outer key "A" and point to "A", but their from-ids are "Z" and "C". -/
def mismatchedAdj : AdjMap :=
  [("A", [("k1", ⟨"L", "Z", "A"⟩), ("k2", ⟨"L", "C", "A"⟩)])]

/-- A graph whose single adjacency record (at keys "A","B") carries a to-id
field "C" that is not a station, although every station key has an
adjacency entry. -/
def mismatchedGraph : TubeGraph :=
  ⟨[("A", ⟨"A", "aa".toList, string_to_bit_field "aa".toList⟩),
    ("B", ⟨"B", "bb".toList, string_to_bit_field "bb".toList⟩)],
   [("A", [("B", ⟨"X", "A", "C"⟩)]), ("B", [])]⟩

/-- `m[a][b]` on the nested dict: the record stored at outer key `a`, inner
key `b`. -/
def lookup2 (m : AdjMap) (a b : String) : Option TubeStationAdjacency :=
  match List.lookup a m with
  | none => none
  | some inner => List.lookup b inner

/-! ## Letter mask (claim C5) -/

theorem foldl_mask_testBit (l : List Nat) (P : Nat → Bool) (acc : Nat) (i : Nat) :
    ((l.foldl (fun bf ch => if P ch then bf ||| (1 <<< (ch - 97)) else bf) acc).testBit i)
      = (acc.testBit i || l.any (fun ch => P ch && decide (ch - 97 = i))) := by
  induction l generalizing acc with
  | nil => simp
  | cons c cs ih =>
      simp only [List.foldl_cons, List.any_cons]
      rw [ih]
      by_cases h : P c = true
      · simp only [h, if_pos, Nat.testBit_or, Nat.one_shiftLeft,
          Nat.testBit_two_pow, Bool.true_and]
        rw [Bool.or_assoc]
      · simp [h]

theorem foldl_mask_lt (l : List Nat) (P : Nat → Bool) (acc : Nat)
    (hl : ∀ ch ∈ l, ch - 97 < 26) (hacc : acc < 2 ^ 26) :
    (l.foldl (fun bf ch => if P ch then bf ||| (1 <<< (ch - 97)) else bf) acc) < 2 ^ 26 := by
  induction l generalizing acc with
  | nil => simpa using hacc
  | cons c cs ih =>
      simp only [List.foldl_cons]
      apply ih _ (fun ch hch => hl ch (List.mem_cons_of_mem _ hch))
      by_cases h : P c = true
      · simp only [h, if_pos]
        apply Nat.or_lt_two_pow hacc
        rw [Nat.one_shiftLeft]
        exact Nat.pow_lt_pow_right (by norm_num) (hl c (List.mem_cons_self _ _))
      · simpa [h] using hacc

theorem string_to_bit_field_lt (s : List Char) : string_to_bit_field s < 2 ^ 26 := by
  unfold string_to_bit_field
  apply foldl_mask_lt
  · intro ch hch
    rw [List.mem_range'_1] at hch
    omega
  · norm_num

theorem string_to_bit_field_testBit (s : List Char) (i : Nat) (h : i < 26) :
    (string_to_bit_field s).testBit i
      = (s.map Char.toLower).contains (Char.ofNat (97 + i)) := by
  unfold string_to_bit_field
  rw [foldl_mask_testBit]
  simp only [Nat.zero_testBit, Bool.false_or]
  rw [Bool.eq_iff_iff, List.any_eq_true]
  constructor
  · rintro ⟨ch, hch, hP⟩
    rw [List.mem_range'_1] at hch
    simp only [Bool.and_eq_true, decide_eq_true_eq] at hP
    have : ch = 97 + i := by omega
    subst this
    exact hP.1
  · intro hP
    refine ⟨97 + i, ?_, ?_⟩
    · rw [List.mem_range'_1]; omega
    · simp only [Bool.and_eq_true, decide_eq_true_eq]
      exact ⟨hP, by omega⟩

theorem string_to_bit_field_testBit_iff (s : List Char) (i : Nat) (h : i < 26) :
    ((string_to_bit_field s).testBit i = true ↔ ∃ c ∈ s, c.toLower = Char.ofNat (97 + i)) := by
  rw [string_to_bit_field_testBit s i h, List.elem_iff, List.mem_map]

/-- Claim C5: for every string, `string_to_bit_field` is a 26-bit integer
whose bit `i` (0 = 'a' … 25 = 'z') is set iff letter `i` occurs in the
string case-insensitively (non-letter characters never set a bit, as nothing
lowercases into 'a'..'z' except that letter's two cases); the mask of the
empty string is 0, the mask of "aA" equals the mask of "a", and the mask
depends only on which characters occur, hence is invariant under permutation
and duplication. -/
theorem C5_string_to_bit_field_spec (s : List Char) :
    string_to_bit_field s < 2 ^ 26
    ∧ (∀ i : Nat, i < 26 →
        ((string_to_bit_field s).testBit i = true ↔
          ∃ c ∈ s, c.toLower = Char.ofNat (97 + i)))
    ∧ string_to_bit_field [] = 0
    ∧ string_to_bit_field ['a', 'A'] = string_to_bit_field ['a']
    ∧ (∀ t : List Char, (∀ c, c ∈ s ↔ c ∈ t) →
        string_to_bit_field s = string_to_bit_field t) := by
  refine ⟨string_to_bit_field_lt s, string_to_bit_field_testBit_iff s, by decide, by decide, ?_⟩
  intro t hmem
  apply Nat.eq_of_testBit_eq
  intro i
  by_cases hi : i < 26
  · rw [Bool.eq_iff_iff, string_to_bit_field_testBit _ _ hi,
      string_to_bit_field_testBit _ _ hi, List.elem_iff, List.elem_iff,
      List.mem_map, List.mem_map]
    constructor
    · rintro ⟨c, hc, hlc⟩; exact ⟨c, (hmem c).1 hc, hlc⟩
    · rintro ⟨c, hc, hlc⟩; exact ⟨c, (hmem c).2 hc, hlc⟩
  · rw [Nat.testBit_lt_two_pow, Nat.testBit_lt_two_pow]
    · calc string_to_bit_field t < 2 ^ 26 := string_to_bit_field_lt t
        _ ≤ 2 ^ i := Nat.pow_le_pow_right (by norm_num) (by omega)
    · calc string_to_bit_field s < 2 ^ 26 := string_to_bit_field_lt s
        _ ≤ 2 ^ i := Nat.pow_le_pow_right (by norm_num) (by omega)

/-- Witness for C5 at the concrete string "aB!": bit 1 ('b') is set because
'B' occurs, and the mask is unchanged by permuting and duplicating. -/
theorem C5_witness :
    (1 < 26 ∧
      ((string_to_bit_field ['a', 'B', '!']).testBit 1 = true ↔
        ∃ c ∈ ['a', 'B', '!'], c.toLower = Char.ofNat (97 + 1)))
    ∧ ((∀ c, c ∈ ['a', 'B', '!'] ↔ c ∈ ['!', 'B', 'a', 'a']) ∧
        string_to_bit_field ['a', 'B', '!'] = string_to_bit_field ['!', 'B', 'a', 'a']) := by
  have hmem : ∀ c, c ∈ ['a', 'B', '!'] ↔ c ∈ ['!', 'B', 'a', 'a'] := by
    intro c
    simp only [List.mem_cons, List.not_mem_nil, or_false]
    tauto
  exact ⟨⟨by decide, (C5_string_to_bit_field_spec ['a', 'B', '!']).2.1 1 (by decide)⟩,
    ⟨hmem, (C5_string_to_bit_field_spec ['a', 'B', '!']).2.2.2.2 _ hmem⟩⟩

/-! ## Bounded-concurrency mapper (claim C4) -/

theorem limit_concurrency_eq_flatten_batches {α : Type} (k : Nat) :
    ∀ (n : Nat) (aws : List α), aws.length ≤ n →
      limit_concurrency aws k = (batches aws k).flatten := by
  intro n
  induction n with
  | zero =>
      intro aws h
      have haws : aws = [] := by cases aws <;> simp_all
      subst haws
      rw [limit_concurrency.eq_def, batches.eq_def]
      simp
  | succ n ih =>
      intro aws h
      rw [limit_concurrency.eq_def, batches.eq_def]
      by_cases hb : (aws.take k).isEmpty
      · simp [hb]
      · simp only [if_neg hb, List.flatten_cons]
        congr 1
        apply ih
        rw [List.isEmpty_eq_true] at hb
        have h2 : aws ≠ [] := by rintro rfl; exact hb (by simp)
        have h1 : k ≠ 0 := by rintro rfl; exact hb (by simp)
        have h3 : 0 < aws.length := List.length_pos.mpr h2
        rw [List.length_drop]
        omega

theorem limit_concurrency_id {α : Type} (k : Nat) (hk : 1 ≤ k) :
    ∀ (n : Nat) (aws : List α), aws.length ≤ n → limit_concurrency aws k = aws := by
  intro n
  induction n with
  | zero =>
      intro aws h
      have haws : aws = [] := by cases aws <;> simp_all
      subst haws
      rw [limit_concurrency.eq_def]
      simp
  | succ n ih =>
      intro aws h
      rw [limit_concurrency.eq_def]
      by_cases hb : (aws.take k).isEmpty
      · rw [if_pos hb]
        rw [List.isEmpty_eq_true, List.take_eq_nil_iff] at hb
        rcases hb with hb | hb
        · omega
        · exact hb.symm
      · rw [if_neg hb, ih (aws.drop k) ?_, List.take_append_drop]
        rw [List.isEmpty_eq_true] at hb
        have h2 : aws ≠ [] := by rintro rfl; exact hb (by simp)
        have h3 : 0 < aws.length := List.length_pos.mpr h2
        rw [List.length_drop]
        omega

theorem batches_shape {α : Type} (k : Nat) :
    ∀ (n : Nat) (aws : List α), aws.length ≤ n →
      (∀ b ∈ batches aws k, b ≠ [] ∧ b.length ≤ k) ∧
      (∀ b ∈ (batches aws k).dropLast, b.length = k) := by
  intro n
  induction n with
  | zero =>
      intro aws h
      have haws : aws = [] := by cases aws <;> simp_all
      subst haws
      rw [batches.eq_def]
      simp
  | succ n ih =>
      intro aws h
      rw [batches.eq_def]
      by_cases hb : (aws.take k).isEmpty
      · simp [hb]
      · rw [if_neg hb]
        have hbne : ¬ aws.take k = [] := by rwa [List.isEmpty_eq_true] at hb
        have h2 : aws ≠ [] := by rintro rfl; exact hbne (by simp)
        have h1 : k ≠ 0 := by rintro rfl; exact hbne (by simp)
        have h3 : 0 < aws.length := List.length_pos.mpr h2
        have hdrop : (aws.drop k).length ≤ n := by
          rw [List.length_drop]; omega
        refine ⟨?_, ?_⟩
        · intro b hbmem
          rcases List.mem_cons.mp hbmem with hbeq | hbmem'
          · subst hbeq
            exact ⟨hbne, by simp⟩
          · exact (ih (aws.drop k) hdrop).1 b hbmem'
        · intro b hbmem
          cases hrec : batches (aws.drop k) k with
          | nil => rw [hrec] at hbmem; simp at hbmem
          | cons y ys =>
              rw [hrec, List.dropLast_cons₂] at hbmem
              rcases List.mem_cons.mp hbmem with hbeq | hbmem'
              · subst hbeq
                have hdropne : aws.drop k ≠ [] := by
                  intro hd
                  rw [batches.eq_def, hd] at hrec
                  simp at hrec
                have : k < aws.length := by
                  by_contra hcon
                  exact hdropne (List.drop_eq_nil_of_le (by omega))
                simp [List.length_take]
                omega
              · have := (ih (aws.drop k) hdrop).2
                rw [hrec] at this
                exact this b hbmem'

/-- Claim C4: for every operation list and concurrency limit K ≥ 1, the
bounded mapper returns exactly one result per operation, in input order
(each operation's result is its function value), obtained as the
concatenation of consecutive batches that are nonempty, of size at most K,
and of size exactly K except possibly the last. -/
theorem C4_map_unordered_spec {α β : Type} (func : α → β) (iterable : List α)
    (concurrency_limit : Nat) (hk : 1 ≤ concurrency_limit) :
    map_unordered func iterable concurrency_limit = iterable.map func
    ∧ (map_unordered func iterable concurrency_limit).length = iterable.length
    ∧ map_unordered func iterable concurrency_limit
        = (batches (iterable.map func) concurrency_limit).flatten
    ∧ (∀ b ∈ batches (iterable.map func) concurrency_limit,
        b ≠ [] ∧ b.length ≤ concurrency_limit)
    ∧ (∀ b ∈ (batches (iterable.map func) concurrency_limit).dropLast,
        b.length = concurrency_limit) := by
  have h1 := limit_concurrency_id concurrency_limit hk (iterable.map func).length
    (iterable.map func) le_rfl
  have h2 := limit_concurrency_eq_flatten_batches concurrency_limit
    (iterable.map func).length (iterable.map func) le_rfl
  have h3 := batches_shape concurrency_limit (iterable.map func).length
    (iterable.map func) le_rfl
  exact ⟨h1, by rw [map_unordered, h1, List.length_map], h2, h3.1, h3.2⟩

/-- Witness for C4: three operations with limit 2 (a full batch of two and a
final batch of one) produce the three mapped results in input order. -/
theorem C4_witness :
    map_unordered (fun n : Nat => n * 10) [1, 2, 3] 2 = [10, 20, 30] :=
  (C4_map_unordered_spec (fun n : Nat => n * 10) [1, 2, 3] 2 (by decide)).1.trans
    (by rfl)

/-! ## Dict-model lemmas -/

theorem mem_dictSet {β : Type} {m : List (String × β)} {k : String} {v : β}
    {x : String × β} (hx : x ∈ dictSet m k v) : x ∈ m ∨ x = (k, v) := by
  induction m with
  | nil => simpa [dictSet] using hx
  | cons p rest ih =>
      rw [dictSet] at hx
      by_cases hk : p.1 = k
      · rw [if_pos hk] at hx
        rcases List.mem_cons.mp hx with hxeq | hxm
        · exact Or.inr hxeq
        · exact Or.inl (List.mem_cons_of_mem _ hxm)
      · rw [if_neg hk] at hx
        rcases List.mem_cons.mp hx with hxeq | hxm
        · exact Or.inl (by rw [hxeq]; exact List.mem_cons_self _ _)
        · rcases ih hxm with h | h
          · exact Or.inl (List.mem_cons_of_mem _ h)
          · exact Or.inr h

theorem lookup_mem {β : Type} {m : List (String × β)} {k : String} {v : β}
    (h : List.lookup k m = some v) : (k, v) ∈ m := by
  induction m with
  | nil => simp [List.lookup] at h
  | cons p rest ih =>
      obtain ⟨pk, pv⟩ := p
      by_cases hk : k = pk
      · subst hk
        simp [List.lookup] at h
        subst h
        exact List.mem_cons_self _ _
      · have hbeq : (k == pk) = false := beq_eq_false_iff_ne.mpr hk
        simp only [List.lookup, hbeq] at h
        exact List.mem_cons_of_mem _ (ih h)

theorem mem_lookup {β : Type} {m : List (String × β)} {k : String} {v : β}
    (hnd : (m.map Prod.fst).Nodup) (h : (k, v) ∈ m) : List.lookup k m = some v := by
  induction m with
  | nil => simp at h
  | cons p rest ih =>
      obtain ⟨pk, pv⟩ := p
      rw [List.map_cons, List.nodup_cons] at hnd
      rcases List.mem_cons.mp h with heq | hm
      · rw [Prod.mk.injEq] at heq
        obtain ⟨h1, h2⟩ := heq
        subst h1; subst h2
        simp [List.lookup]
      · have hk : k ≠ pk := by
          rintro rfl
          exact hnd.1 (List.mem_map.mpr ⟨(k, v), hm, rfl⟩)
        have hbeq : (k == pk) = false := beq_eq_false_iff_ne.mpr hk
        simp only [List.lookup, hbeq]
        exact ih hnd.2 hm

theorem setAdj_entries {P : String → String → TubeStationAdjacency → Prop}
    {m : AdjMap} {a b : String} {v : TubeStationAdjacency}
    (hm : ∀ p ∈ m, ∀ q ∈ p.2, P p.1 q.1 q.2) (hv : P a b v) :
    ∀ p ∈ setAdj m a b v, ∀ q ∈ p.2, P p.1 q.1 q.2 := by
  intro p hp q hq
  rw [setAdj] at hp
  set m' : AdjMap := if hasKey m a then m else dictSet m a [] with hmdef
  have hm' : ∀ p ∈ m', ∀ q ∈ p.2, P p.1 q.1 q.2 := by
    intro p hp q hq
    rw [hmdef] at hp
    by_cases hk : hasKey m a
    · rw [if_pos hk] at hp; exact hm p hp q hq
    · rw [if_neg hk] at hp
      rcases mem_dictSet hp with h | h
      · exact hm p h q hq
      · subst h; simp at hq
  have hinner : ∀ q ∈ ((List.lookup a m').getD [] : List (String × TubeStationAdjacency)),
      P a q.1 q.2 := by
    intro q hq
    cases hl : List.lookup a m' with
    | none => rw [hl] at hq; simp at hq
    | some inner =>
        rw [hl] at hq
        simp only [Option.getD_some] at hq
        exact hm' (a, inner) (lookup_mem hl) q hq
  rcases mem_dictSet hp with h | h
  · exact hm' p h q hq
  · subst h
    simp only at hq
    rcases mem_dictSet hq with h2 | h2
    · exact hinner q h2
    · rw [h2]; exact hv

/-! ## Adjacency construction (claims C7, C10) -/

theorem foldl_preserves {σ τ : Type} (Inv : σ → Prop) (f : σ → τ → σ) :
    ∀ (l : List τ), (∀ s t, t ∈ l → Inv s → Inv (f s t)) →
      ∀ s, Inv s → Inv (l.foldl f s) := by
  intro l
  induction l with
  | nil => intro _ s hs; simpa
  | cons t ts ih =>
      intro hf s hs
      rw [List.foldl_cons]
      exact ih (fun s' t' ht' => hf s' t' (List.mem_cons_of_mem _ ht'))
        (f s t) (hf s t (List.mem_cons_self _ _) hs)

theorem chain'_pairs {α : Type} {R : α → α → Prop} :
    ∀ (l : List α), List.Chain' R l → ∀ pr ∈ l.zip l.tail, R pr.1 pr.2 := by
  intro l
  induction l with
  | nil => intro _ pr hpr; simp at hpr
  | cons a l ih =>
      intro hch pr hpr
      cases l with
      | nil => simp at hpr
      | cons b rest =>
          rw [List.chain'_cons] at hch
          simp only [List.tail_cons, List.zip_cons_cons] at hpr
          rcases List.mem_cons.mp hpr with heq | hm
          · subst heq; exact hch.1
          · exact ih hch.2 pr (by simpa using hm)

theorem gataa_entries (P : String → String → TubeStationAdjacency → Prop)
    (lines : List (String × String × List String))
    (hins : ∀ l ∈ lines, ∀ pr ∈ l.2.2.zip l.2.2.tail,
      P pr.1 pr.2 ⟨l.2.1, pr.1, pr.2⟩ ∧ P pr.2 pr.1 ⟨l.2.1, pr.2, pr.1⟩) :
    ∀ p ∈ get_all_tube_station_adjacencies lines, ∀ q ∈ p.2, P p.1 q.1 q.2 := by
  unfold get_all_tube_station_adjacencies
  refine foldl_preserves
    (fun m : AdjMap => ∀ p ∈ m, ∀ q ∈ p.2, P p.1 q.1 q.2) _ lines
    ?_ [] (by intro p hp; simp at hp)
  intro m line hline hm
  refine foldl_preserves
    (fun m : AdjMap => ∀ p ∈ m, ∀ q ∈ p.2, P p.1 q.1 q.2) _
    (line.2.2.zip line.2.2.tail) ?_ m hm
  intro m' pair hpair hm'
  exact setAdj_entries (setAdj_entries hm' ((hins line hline pair hpair).1))
    ((hins line hline pair hpair).2)

/-- Record-level description of the adjacency maps `filterAdjacencies`
produces: every stored record comes from the input map's inner dict at the
same outer key, and its inner key survives the station filter. -/
theorem filterAdjacencies_entries {g : AdjMap}
    {stations : List (String × TubeStation)} :
    ∀ (l : List (String × TubeStation)) (out : AdjMap),
      filterAdjacencies g stations l = some out →
      ∀ p ∈ out, ∀ q ∈ p.2,
        ∃ inner, List.lookup p.1 g = some inner ∧ q ∈ inner ∧
          hasKey stations q.1 = true := by
  intro l
  induction l with
  | nil =>
      intro out hout p hp
      rw [filterAdjacencies] at hout
      simp only [Option.some.injEq] at hout
      subst hout
      simp at hp
  | cons s rest ih =>
      intro out hout p hp q hq
      obtain ⟨a, st⟩ := s
      rw [filterAdjacencies] at hout
      cases hl : List.lookup a g with
      | none => rw [hl] at hout; simp at hout
      | some inner =>
          rw [hl] at hout
          cases hrec : filterAdjacencies g stations rest with
          | none => rw [hrec] at hout; simp at hout
          | some tailMap =>
              rw [hrec] at hout
              simp only [Option.some.injEq] at hout
              subst hout
              rcases List.mem_cons.mp hp with heq | hm
              · subst heq
                simp only at hq
                rw [List.mem_filter] at hq
                exact ⟨inner, hl, hq.1, hq.2⟩
              · exact ih tailMap hrec p hm q hq

/-- Claim C10: both adjacency assembly and graph filtering only produce
maps in which the record stored at outer key `a`, inner key `b` has
from-id `a` and to-id `b`; hence the path-extension lookup by the last
record's to-id always continues with properly chained records. -/
theorem C10_agreement_invariant :
    (∀ lines, Agreement (get_all_tube_station_adjacencies lines))
    ∧ (∀ (g : TubeGraph) (f : TubeStation → Bool) (out : TubeGraph),
        Agreement g.adjacencies → filter_tube_graph g f = some out →
        Agreement out.adjacencies) := by
  constructor
  · intro lines
    exact gataa_entries (fun a b r => r.station_a_id = a ∧ r.station_b_id = b)
      lines (fun l hl pr hpr => ⟨⟨rfl, rfl⟩, ⟨rfl, rfl⟩⟩)
  · intro g f out hagree hout
    unfold filter_tube_graph at hout
    cases hfa : filterAdjacencies g.adjacencies
        (g.stations.filter (fun p => f p.2)) (g.stations.filter (fun p => f p.2)) with
    | none => rw [hfa] at hout; simp at hout
    | some adjz =>
        rw [hfa] at hout
        simp only [Option.some.injEq] at hout
        subst hout
        intro p hp q hq
        obtain ⟨inner, hl, hqi, _⟩ :=
          filterAdjacencies_entries _ adjz hfa p hp q hq
        exact hagree (p.1, inner) (lookup_mem hl) q hqi

/-- Witness for C10: the scenario graph's assembled adjacency map satisfies
key/endpoint agreement, and so does its image under an all-true filter. -/
theorem C10_witness :
    Agreement (get_all_tube_station_adjacencies [("line-x", "X", ["A", "B", "C"])])
    ∧ Agreement (((filter_tube_graph scenarioGraph (fun _ => true)).getD
        ⟨[], []⟩).adjacencies) :=
  ⟨C10_agreement_invariant.1 [("line-x", "X", ["A", "B", "C"])],
   C10_agreement_invariant.2 scenarioGraph (fun _ => true) _ (by decide) (by decide)⟩

/-- Claim C7 (amended): provided no line's stop list repeats a station at
consecutive positions, the assembled adjacency map contains no record whose
from-station id equals its to-station id. -/
theorem C7_no_self_loops (lines : List (String × String × List String))
    (hstops : ∀ l ∈ lines, List.Chain' (fun a b => a ≠ b) l.2.2) :
    ∀ p ∈ get_all_tube_station_adjacencies lines, ∀ q ∈ p.2,
      (q.2).station_a_id ≠ (q.2).station_b_id := by
  refine gataa_entries (fun _ _ r => r.station_a_id ≠ r.station_b_id) lines ?_
  intro l hl pr hpr
  have hne : pr.1 ≠ pr.2 := chain'_pairs l.2.2 (hstops l hl) pr hpr
  exact ⟨hne, fun h => hne h.symm⟩

/-- Counterexample to C7 as stated: a stop list with the same station at two
consecutive positions makes the construction insert the self-loop record
A→A, so the no-self-loop property does not hold for every stop sequence. -/
theorem C7_counterexample :
    (lookup2 (get_all_tube_station_adjacencies [("l1", "X", ["A", "A"])]) "A" "A").any
      (fun r => r.station_a_id == r.station_b_id) = true := by decide

/-- Witness for C7 at the scenario line (stops A, B, C, pairwise distinct
consecutively): no stored record is a self-loop. -/
theorem C7_witness :
    (∀ l ∈ [("line-x", "X", ["A", "B", "C"])],
      List.Chain' (fun a b => a ≠ b) (l.2.2 : List String))
    ∧ ∀ p ∈ get_all_tube_station_adjacencies [("line-x", "X", ["A", "B", "C"])],
        ∀ q ∈ p.2, (q.2).station_a_id ≠ (q.2).station_b_id :=
  ⟨by
    intro l hl
    simp only [List.mem_singleton] at hl
    subst hl
    simp only [List.chain'_cons, List.chain'_singleton, and_true]
    exact ⟨by decide, by decide⟩,
   C7_no_self_loops [("line-x", "X", ["A", "B", "C"])] (by
    intro l hl
    simp only [List.mem_singleton] at hl
    subst hl
    simp only [List.chain'_cons, List.chain'_singleton, and_true]
    exact ⟨by decide, by decide⟩)⟩

/-! ## Graph filtering (claim C3) -/

theorem hasKey_iff_mem_keys {β : Type} (m : List (String × β)) (k : String) :
    hasKey m k = true ↔ k ∈ m.map Prod.fst := by
  induction m with
  | nil => simp [hasKey, List.lookup]
  | cons p rest ih =>
      obtain ⟨pk, pv⟩ := p
      by_cases hk : k = pk
      · subst hk
        simp [hasKey, List.lookup]
      · have hbeq : (k == pk) = false := beq_eq_false_iff_ne.mpr hk
        simp only [hasKey, List.lookup, hbeq, List.map_cons, List.mem_cons]
        rw [← hasKey]
        rw [ih]
        simp [hk]

theorem filterAdjacencies_keys {g : AdjMap} {st : List (String × TubeStation)} :
    ∀ (l : List (String × TubeStation)) (out : AdjMap),
      filterAdjacencies g st l = some out → out.map Prod.fst = l.map Prod.fst := by
  intro l
  induction l with
  | nil =>
      intro out hout
      rw [filterAdjacencies] at hout
      simp only [Option.some.injEq] at hout
      subst hout
      simp
  | cons s rest ih =>
      intro out hout
      obtain ⟨a, stn⟩ := s
      rw [filterAdjacencies] at hout
      cases hl : List.lookup a g with
      | none => rw [hl] at hout; simp at hout
      | some inner =>
          rw [hl] at hout
          cases hrec : filterAdjacencies g st rest with
          | none => rw [hrec] at hout; simp at hout
          | some tailMap =>
              rw [hrec] at hout
              simp only [Option.some.injEq] at hout
              subst hout
              simp only [List.map_cons, List.cons.injEq]
              exact ⟨trivial, ih tailMap hrec⟩

theorem filterAdjacencies_mem {g : AdjMap} {st : List (String × TubeStation)} :
    ∀ (l : List (String × TubeStation)) (out : AdjMap),
      filterAdjacencies g st l = some out →
      ∀ (a : String) (s0 : TubeStation) (inner : List (String × TubeStationAdjacency)),
        (a, s0) ∈ l → List.lookup a g = some inner →
        (a, inner.filter (fun q => hasKey st q.1)) ∈ out := by
  intro l
  induction l with
  | nil => intro out _ a s0 inner hmem; simp at hmem
  | cons s rest ih =>
      intro out hout a s0 inner hmem hl
      obtain ⟨hk, hstn⟩ := s
      rw [filterAdjacencies] at hout
      cases hlh : List.lookup hk g with
      | none => rw [hlh] at hout; simp at hout
      | some innerH =>
          rw [hlh] at hout
          cases hrec : filterAdjacencies g st rest with
          | none => rw [hrec] at hout; simp at hout
          | some tailMap =>
              rw [hrec] at hout
              simp only [Option.some.injEq] at hout
              subst hout
              rcases List.mem_cons.mp hmem with heq | hmem'
              · rw [Prod.mk.injEq] at heq
                obtain ⟨h1, _⟩ := heq
                subst h1
                rw [hlh] at hl
                simp only [Option.some.injEq] at hl
                subst hl
                exact List.mem_cons_self _ _
              · exact List.mem_cons_of_mem _ (ih tailMap hrec a s0 inner hmem' hl)

/-- Claim C3 (amended): for a well-formed graph (dict keys unique) whose
adjacency records agree with their keys and whose station keys all have an
adjacency entry, filtering keeps exactly the stations passing the predicate,
keeps a record exactly when the input holds it at the same keys and both its
endpoint ids survive, and consequently the filtered graph has no record with
a dangling endpoint id. -/
theorem C3_filter_tube_graph_spec (g : TubeGraph) (f : TubeStation → Bool)
    (out : TubeGraph)
    (hndS : (g.stations.map Prod.fst).Nodup)
    (hndI : ∀ p ∈ g.adjacencies, (p.2.map Prod.fst).Nodup)
    (hcov : ∀ s ∈ g.stations, hasKey g.adjacencies s.1 = true)
    (hagree : Agreement g.adjacencies)
    (hout : filter_tube_graph g f = some out) :
    (∀ (a : String) (s : TubeStation),
      (a, s) ∈ out.stations ↔ ((a, s) ∈ g.stations ∧ f s = true))
    ∧ (∀ (a b : String) (r : TubeStationAdjacency),
        lookup2 out.adjacencies a b = some r ↔
          (lookup2 g.adjacencies a b = some r
            ∧ hasKey out.stations r.station_a_id = true
            ∧ hasKey out.stations r.station_b_id = true))
    ∧ (∀ p ∈ out.adjacencies, ∀ q ∈ p.2,
        hasKey out.stations (q.2 : TubeStationAdjacency).station_a_id = true
        ∧ hasKey out.stations (q.2 : TubeStationAdjacency).station_b_id = true) := by
  unfold filter_tube_graph at hout
  cases hfa : filterAdjacencies g.adjacencies
      (g.stations.filter (fun p => f p.2)) (g.stations.filter (fun p => f p.2)) with
  | none => rw [hfa] at hout; simp at hout
  | some adjz => ?_
  rw [hfa] at hout
  simp only [Option.some.injEq] at hout
  subst hout
  have hstnd : ((g.stations.filter (fun p => f p.2)).map Prod.fst).Nodup :=
    ((List.filter_sublist _).map Prod.fst).nodup hndS
  have hadjkeys : adjz.map Prod.fst
      = (g.stations.filter (fun p => f p.2)).map Prod.fst :=
    filterAdjacencies_keys _ adjz hfa
  refine ⟨?_, ?_, ?_⟩
  · intro a s
    simp [List.mem_filter]
  · intro a b r
    constructor
    · intro h2
      rw [lookup2] at h2
      cases hla : List.lookup a adjz with
      | none => rw [hla] at h2; simp at h2
      | some inner' =>
          rw [hla] at h2
          have hmem' : (a, inner') ∈ adjz := lookup_mem hla
          have hbr : (b, r) ∈ inner' := lookup_mem h2
          obtain ⟨inner, hl, hqi, hkb⟩ :=
            filterAdjacencies_entries _ adjz hfa (a, inner') hmem' (b, r) hbr
          simp only at hl hqi hkb
          have hag := hagree (a, inner) (lookup_mem hl) (b, r) hqi
          simp only at hag
          have hinnd : (inner.map Prod.fst).Nodup :=
            hndI (a, inner) (lookup_mem hl)
          have hka : a ∈ adjz.map Prod.fst :=
            List.mem_map.mpr ⟨(a, inner'), hmem', rfl⟩
          rw [hadjkeys] at hka
          refine ⟨?_, ?_, ?_⟩
          · rw [lookup2, hl]
            exact mem_lookup hinnd hqi
          · rw [hag.1]
            exact (hasKey_iff_mem_keys _ _).mpr hka
          · rw [hag.2]
            exact hkb
    · rintro ⟨h2, hka, hkb⟩
      rw [lookup2] at h2
      cases hla : List.lookup a g.adjacencies with
      | none => rw [hla] at h2; simp at h2
      | some inner =>
          rw [hla] at h2
          have hag := hagree (a, inner) (lookup_mem hla) (b, r) (lookup_mem h2)
          simp only at hag
          rw [hag.1] at hka
          rw [hag.2] at hkb
          rw [hasKey_iff_mem_keys, List.mem_map] at hka
          obtain ⟨⟨a', s0⟩, hs0, ha'⟩ := hka
          simp only at ha'
          rw [ha'] at hs0
          have hentry := filterAdjacencies_mem _ adjz hfa a s0 inner hs0 hla
          have hlfa : List.lookup a adjz
              = some (inner.filter (fun q => hasKey (g.stations.filter (fun p => f p.2)) q.1)) := by
            apply mem_lookup _ hentry
            rw [hadjkeys]
            exact hstnd
          rw [lookup2, hlfa]
          apply mem_lookup
          · exact ((List.filter_sublist _).map Prod.fst).nodup
              (hndI (a, inner) (lookup_mem hla))
          · rw [List.mem_filter]
            exact ⟨lookup_mem h2, hkb⟩
  · intro p hp q hq
    obtain ⟨inner, hl, hqi, hkb⟩ :=
      filterAdjacencies_entries _ adjz hfa p hp q hq
    have hag := hagree (p.1, inner) (lookup_mem hl) q hqi
    have hka : p.1 ∈ adjz.map Prod.fst := List.mem_map.mpr ⟨p, hp, rfl⟩
    rw [hadjkeys] at hka
    constructor
    · rw [hag.1]
      exact (hasKey_iff_mem_keys _ _).mpr hka
    · rw [hag.2]
      exact hkb

/-- Counterexample to C3 as stated: in a graph meeting the claim's explicit
hypothesis (every station key has an adjacency entry) but whose one record
carries a to-id field ("C") different from its inner key, the record
survives an all-true filter although its to-id is not a key of the filtered
station mapping — the no-dangling-endpoint consequent fails. -/
theorem C3_counterexample :
    (∀ s ∈ mismatchedGraph.stations, hasKey mismatchedGraph.adjacencies s.1 = true)
    ∧ ((lookup2 (((filter_tube_graph mismatchedGraph (fun _ => true)).getD
          ⟨[], []⟩).adjacencies) "A" "B").any
        (fun r => !(hasKey (((filter_tube_graph mismatchedGraph
          (fun _ => true)).getD ⟨[], []⟩).stations) r.station_b_id))) = true := by
  constructor
  · decide
  · decide

/-- Witness for C3 on the scenario graph with banned word "c": stations B
and C survive, and the one surviving bidirectional edge respects the
characterization. -/
theorem C3_witness :
    ("B", (⟨"B", "dog".toList, string_to_bit_field "dog".toList⟩ : TubeStation))
        ∈ ((filter_tube_graph scenarioGraph
            (banned_string_filter "c".toList)).getD ⟨[], []⟩).stations
    ∧ lookup2 (((filter_tube_graph scenarioGraph
        (banned_string_filter "c".toList)).getD ⟨[], []⟩).adjacencies) "B" "C"
        = some ⟨"X", "B", "C"⟩
    ∧ ∀ p ∈ ((filter_tube_graph scenarioGraph
        (banned_string_filter "c".toList)).getD ⟨[], []⟩).adjacencies,
        ∀ q ∈ p.2,
          hasKey ((filter_tube_graph scenarioGraph
              (banned_string_filter "c".toList)).getD ⟨[], []⟩).stations
            (q.2 : TubeStationAdjacency).station_a_id = true
          ∧ hasKey ((filter_tube_graph scenarioGraph
              (banned_string_filter "c".toList)).getD ⟨[], []⟩).stations
            (q.2 : TubeStationAdjacency).station_b_id = true := by
  refine ⟨by decide, by decide, ?_⟩
  exact (C3_filter_tube_graph_spec scenarioGraph (banned_string_filter "c".toList)
    ((filter_tube_graph scenarioGraph (banned_string_filter "c".toList)).getD ⟨[], []⟩)
    (by decide) (by decide) (by decide) (by decide) (by decide)).2.2

/-! ## Station name cleaning (claim C6) -/

theorem isPrefixOf_self (l : List Char) : l.isPrefixOf l = true := by
  induction l with
  | nil => rfl
  | cons c rest ih => simp [List.isPrefixOf, ih]

theorem pyreplaceFuel_nil (old new : List Char) (fuel : Nat) :
    pyreplaceFuel old new fuel [] = [] := by
  cases fuel <;> rw [pyreplaceFuel]

theorem pyreplaceFuel_no_occ (old new : List Char) :
    ∀ (fuel : Nat) (s : List Char), s.length ≤ fuel →
      (∀ i, old.isPrefixOf (s.drop i) = false) →
      pyreplaceFuel old new fuel s = s := by
  intro fuel
  induction fuel with
  | zero => intro s _ _; rw [pyreplaceFuel]
  | succ fuel ih =>
      intro s hlen hocc
      cases s with
      | nil => rw [pyreplaceFuel]
      | cons c rest =>
          have h0 : old.isPrefixOf (c :: rest) = false := hocc 0
          rw [pyreplaceFuel, h0]
          simp only [Bool.false_eq_true, if_false, List.cons.injEq, true_and]
          exact ih rest (by simpa using hlen) (fun i => hocc (i + 1))

theorem pyreplaceFuel_trailing (old : List Char) (hne : old ≠ []) :
    ∀ (base : List Char) (fuel : Nat), (base ++ old).length ≤ fuel →
      (∀ i < base.length, old.isPrefixOf ((base ++ old).drop i) = false) →
      pyreplaceFuel old [] fuel (base ++ old) = base := by
  intro base
  induction base with
  | nil =>
      intro fuel hlen _
      simp only [List.nil_append, List.length_nil] at hlen ⊢
      cases old with
      | nil => exact absurd rfl hne
      | cons c rest =>
          cases fuel with
          | zero => simp at hlen
          | succ fuel =>
              rw [pyreplaceFuel, isPrefixOf_self (c :: rest)]
              simp only [if_true, List.nil_append]
              rw [List.drop_length]
              exact pyreplaceFuel_nil _ _ _
  | cons c base' ih =>
      intro fuel hlen hocc
      cases fuel with
      | zero => simp at hlen
      | succ fuel =>
          rw [List.cons_append, pyreplaceFuel]
          have h0 : old.isPrefixOf (c :: (base' ++ old)) = false :=
            hocc 0 (by simp)
          rw [h0]
          simp only [Bool.false_eq_true, if_false, List.cons.injEq, true_and]
          exact ih fuel (by simpa using hlen)
            (fun i hi => hocc (i + 1) (by simpa using Nat.succ_lt_succ hi))

/-- Claim C6 (amended): the station built by `get_tube_station` has name
equal to the raw display name with EVERY occurrence of the fixed suffix
" Underground Station" removed (Python `str.replace`), not merely a trailing
occurrence; in particular when the suffix occurs exactly once, at the end,
the name is the raw name without that trailing suffix, and when it does not
occur at all the name is the raw name unchanged.  The station's `bit_field`
is `string_to_bit_field` of the name (a pure function of the name), and its
id is the requested id. -/
theorem C6_get_tube_station_spec (station_id : String) (raw : List Char) :
    (get_tube_station station_id raw).2.name = pyreplace raw undergroundSuffix []
    ∧ (get_tube_station station_id raw).2.bit_field
        = string_to_bit_field ((get_tube_station station_id raw).2.name)
    ∧ (get_tube_station station_id raw).2.station_id = station_id
    ∧ ((∀ i, undergroundSuffix.isPrefixOf (raw.drop i) = false) →
        (get_tube_station station_id raw).2.name = raw)
    ∧ (∀ base : List Char, raw = base ++ undergroundSuffix →
        (∀ i < base.length, undergroundSuffix.isPrefixOf (raw.drop i) = false) →
        (get_tube_station station_id raw).2.name = base) := by
  refine ⟨rfl, rfl, rfl, ?_, ?_⟩
  · intro hocc
    exact pyreplaceFuel_no_occ undergroundSuffix [] raw.length raw le_rfl hocc
  · intro base hraw hocc
    subst hraw
    exact pyreplaceFuel_trailing undergroundSuffix (by decide) base
      (base ++ undergroundSuffix).length le_rfl hocc

/-- Counterexample to C6 as stated: on the raw name
"A Underground Station B" the code removes the interior occurrence of the
suffix (yielding "A B"), while stripping the suffix from the end would leave
the name unchanged; the two disagree. -/
theorem C6_counterexample :
    (get_tube_station "s1" "A Underground Station B".toList).2.name
        = "A B".toList
    ∧ (get_tube_station "s1" "A Underground Station B".toList).2.name
        ≠ stripEndSuffix "A Underground Station B".toList undergroundSuffix := by
  constructor
  · decide
  · decide

/-- Witness for C6 at the raw name "Bank Underground Station": the suffix
occurs once, at the end, and the station is named "Bank" with the matching
letter mask. -/
theorem C6_witness :
    ("Bank Underground Station".toList
        = "Bank".toList ++ undergroundSuffix
      ∧ (get_tube_station "940GZZLUBNK" "Bank Underground Station".toList).2.name
        = "Bank".toList)
    ∧ (get_tube_station "940GZZLUBNK" "Bank Underground Station".toList).2.bit_field
      = string_to_bit_field
          ((get_tube_station "940GZZLUBNK" "Bank Underground Station".toList).2.name) :=
  ⟨⟨by decide,
    (C6_get_tube_station_spec "940GZZLUBNK" "Bank Underground Station".toList).2.2.2.2
      "Bank".toList (by decide) (by decide)⟩,
   (C6_get_tube_station_spec "940GZZLUBNK" "Bank Underground Station".toList).2.1⟩

/-! ## Rate-limited fetch (claim C8) -/

theorem toNat_ofNat_small (n : Nat) (h : n < 55296) : (Char.ofNat n).toNat = n := by
  have hv : n.isValidChar := Or.inl h
  unfold Char.ofNat
  rw [dif_pos hv]
  simp [Char.ofNatAux, Char.toNat, UInt32.toNat, BitVec.toNat_ofNatLt]

theorem isPrefixOf_append_self (l t : List Char) : l.isPrefixOf (l ++ t) = true := by
  induction l with
  | nil => simp [List.isPrefixOf]
  | cons c rest ih => simp [List.isPrefixOf, ih]

theorem splitFirst?_first_occ (sep : List Char) (hne : sep ≠ []) :
    ∀ (pre tail : List Char),
      (∀ i < pre.length, sep.isPrefixOf ((pre ++ sep ++ tail).drop i) = false) →
      splitFirst? sep (pre ++ sep ++ tail) = some (pre, tail) := by
  intro pre
  induction pre with
  | nil =>
      intro tail _
      cases sep with
      | nil => exact absurd rfl hne
      | cons c rest =>
          simp only [List.nil_append, List.cons_append]
          rw [splitFirst?]
          rw [← List.cons_append, isPrefixOf_append_self]
          simp [List.drop_left]
  | cons c pre' ih =>
      intro tail hocc
      simp only [List.cons_append]
      rw [splitFirst?]
      have h0 : sep.isPrefixOf (c :: (pre' ++ sep ++ tail)) = false :=
        hocc 0 (by simp)
      rw [h0]
      simp only [Bool.false_eq_true, if_false]
      rw [ih tail (fun i hi => hocc (i + 1) (by simpa using Nat.succ_lt_succ hi))]

theorem tryAgainSep_not_prefix_cons (c : Char) (x : List Char) (hc : c ≠ 'T') :
    tryAgainSep.isPrefixOf (c :: x) = false := by
  have h : tryAgainSep = 'T' :: "ry again in ".toList := rfl
  rw [h]
  have hb : ('T' == c) = false := beq_eq_false_iff_ne.mpr (Ne.symm hc)
  simp [List.isPrefixOf, hb]

theorem takeWhile_split1 :
    ∀ (digits : List Char), (∀ c ∈ digits, c ≠ 'T' ∧ c ≠ ' ') →
      ∀ (tail : List Char),
        ((match splitFirst? tryAgainSep (digits ++ ' ' :: tail) with
          | none => digits ++ ' ' :: tail
          | some (pre, _) => pre).takeWhile (fun c => c ≠ ' ')) = digits := by
  intro digits
  induction digits with
  | nil =>
      intro _ tail
      simp only [List.nil_append]
      rw [splitFirst?]
      rw [tryAgainSep_not_prefix_cons ' ' tail (by decide)]
      simp only [Bool.false_eq_true, if_false]
      cases hsp : splitFirst? tryAgainSep tail with
      | none => simp [List.takeWhile_cons]
      | some pq =>
          obtain ⟨p, q⟩ := pq
          simp [List.takeWhile_cons]
  | cons d digits' ih =>
      intro hd tail
      have hdT : d ≠ 'T' := (hd d (List.mem_cons_self _ _)).1
      have hdsp : d ≠ ' ' := (hd d (List.mem_cons_self _ _)).2
      have ih' := ih (fun c hc => hd c (List.mem_cons_of_mem _ hc)) tail
      simp only [List.cons_append]
      rw [splitFirst?]
      rw [tryAgainSep_not_prefix_cons d _ hdT]
      simp only [Bool.false_eq_true, if_false]
      cases hsp : splitFirst? tryAgainSep (digits' ++ ' ' :: tail) with
      | none =>
          rw [hsp] at ih'
          simp only [List.takeWhile_cons, decide_eq_true_eq]
          rw [if_pos hdsp]
          simp only [List.cons.injEq, true_and]
          simpa using ih'
      | some pq =>
          obtain ⟨p, q⟩ := pq
          rw [hsp] at ih'
          simp only [List.takeWhile_cons, decide_eq_true_eq]
          rw [if_pos hdsp]
          simp only [List.cons.injEq, true_and]
          simpa using ih'

theorem digitChars_mem (n : Nat) : ∀ c ∈ digitChars n, c ≠ 'T' ∧ c ≠ ' ' := by
  intro c hc
  unfold digitChars at hc
  rw [List.mem_map] at hc
  obtain ⟨d, hd, hceq⟩ := hc
  have hdlt : d < 10 := Nat.digits_lt_base (by norm_num) (List.mem_reverse.mp hd)
  subst hceq
  have htn : (Char.ofNat (d + 48)).toNat = d + 48 := toNat_ofNat_small _ (by omega)
  refine ⟨?_, ?_⟩
  · intro heq
    have h84 := congrArg Char.toNat heq
    rw [htn] at h84
    have hT : ('T').toNat = 84 := rfl
    rw [hT] at h84
    omega
  · intro heq
    have h32 := congrArg Char.toNat heq
    rw [htn] at h32
    have hsp : (' ').toNat = 32 := rfl
    rw [hsp] at h32
    omega

theorem foldl_digit_chars (ds : List Nat) (hds : ∀ d ∈ ds, d < 10) :
    ∀ a : Nat, ((ds.map (fun d => Char.ofNat (d + 48))).foldl
        (fun n c => 10 * n + (c.toNat - 48)) a)
      = ds.foldl (fun n d => 10 * n + d) a := by
  induction ds with
  | nil => intro a; rfl
  | cons d ds ih =>
      intro a
      simp only [List.map_cons, List.foldl_cons]
      rw [toNat_ofNat_small (d + 48) (by have := hds d (List.mem_cons_self _ _); omega)]
      have harg : d + 48 - 48 = d := by omega
      rw [harg, ih (fun x hx => hds x (List.mem_cons_of_mem _ hx))]

theorem foldl_base10 (ds : List Nat) :
    ∀ a : Nat, ds.foldl (fun n d => 10 * n + d) a
      = a * 10 ^ ds.length + Nat.ofDigits 10 ds.reverse := by
  induction ds with
  | nil => intro a; simp
  | cons d ds ih =>
      intro a
      rw [List.foldl_cons, ih, List.reverse_cons, Nat.ofDigits_append]
      simp [Nat.ofDigits]
      ring

theorem pyint_digitChars (n : Nat) : pyint (digitChars n) = n := by
  unfold pyint digitChars
  rw [foldl_digit_chars _ (fun d hd =>
    Nat.digits_lt_base (by norm_num) (List.mem_reverse.mp hd))]
  rw [foldl_base10]
  simp [Nat.ofDigits_digits]

theorem parseRetryDelay_eq (pre tail0 : List Char) (n : Nat)
    (hpre : ∀ i < pre.length,
      tryAgainSep.isPrefixOf
        ((pre ++ tryAgainSep ++ (digitChars n ++ ' ' :: tail0)).drop i) = false) :
    parseRetryDelay (pre ++ tryAgainSep ++ (digitChars n ++ ' ' :: tail0)) = n := by
  have h1 : split_index1 (pre ++ tryAgainSep ++ (digitChars n ++ ' ' :: tail0))
      tryAgainSep
      = (match splitFirst? tryAgainSep (digitChars n ++ ' ' :: tail0) with
          | none => digitChars n ++ ' ' :: tail0
          | some (pre1, _) => pre1) := by
    unfold split_index1
    rw [splitFirst?_first_occ tryAgainSep (by decide) pre _ hpre]
  unfold parseRetryDelay
  rw [h1, takeWhile_split1 (digitChars n) (digitChars_mem n) tail0]
  exact pyint_digitChars n

theorem apiRequestLoop_cons_429 (url : String) (params : List (String × String))
    (r : ApiResponse) (rest : List ApiResponse)
    (hr : (r.hasStatusCode && (r.statusCode == 429)) = true) :
    apiRequestLoop url params (r :: rest)
      = match apiRequestLoop url params rest with
        | none => none
        | some (calls, sleeps, final) =>
            some ((url, params) :: calls,
              parseRetryDelay r.message :: sleeps, final) := by
  rw [apiRequestLoop, if_pos hr]

theorem apiRequestLoop_cons_normal (url : String) (params : List (String × String))
    (r : ApiResponse) (rest : List ApiResponse)
    (hr : (r.hasStatusCode && (r.statusCode == 429)) = false) :
    apiRequestLoop url params (r :: rest) = some ([(url, params)], [], r) := by
  rw [apiRequestLoop, if_neg (by simp [hr])]

/-- Claim C8: when the transport yields first a 429 body whose message
contains "Try again in <n> " (first occurrence of the split literal, `n`
rendered in decimal) and then a non-rate-limited body, `make_api_request`
issues exactly two identical requests (same URL and merged credential
parameters), sleeps exactly once for `n` seconds (the integer token after
"Try again in "), and returns the second body; the 429 body is never
returned. -/
theorem C8_make_api_request_retry (app_id app_key endpoint : String)
    (params : List (String × String)) (pre tail0 : List Char) (n : Nat)
    (normal : ApiResponse)
    (hpre : ∀ i < pre.length,
      tryAgainSep.isPrefixOf
        ((pre ++ tryAgainSep ++ (digitChars n ++ ' ' :: tail0)).drop i) = false)
    (hnormal : normal.hasStatusCode = false ∨ normal.statusCode ≠ 429) :
    make_api_request
        [⟨true, 429, pre ++ tryAgainSep ++ (digitChars n ++ ' ' :: tail0)⟩, normal]
        app_id app_key endpoint params
      = some
          ([("https://api.tfl.gov.uk/" ++ endpoint,
              params.foldl (fun m p => dictSet m p.1 p.2)
                [("app_id", app_id), ("app_key", app_key)]),
            ("https://api.tfl.gov.uk/" ++ endpoint,
              params.foldl (fun m p => dictSet m p.1 p.2)
                [("app_id", app_id), ("app_key", app_key)])],
           [n], normal) := by
  have hcond : (normal.hasStatusCode && (normal.statusCode == 429)) = false := by
    rcases hnormal with h | h
    · simp [h]
    · have : (normal.statusCode == 429) = false := beq_eq_false_iff_ne.mpr h
      simp [this]
  unfold make_api_request
  rw [apiRequestLoop_cons_429 _ _ _ _ (by rfl)]
  rw [apiRequestLoop_cons_normal _ _ _ _ hcond]
  dsimp only
  rw [parseRetryDelay_eq pre tail0 n hpre]

/-- Witness for C8: a transport that answers "Rate limited. Try again in 5
seconds." and then a normal body leads to one 5-second sleep, two identical
requests and the normal body as result. -/
theorem C8_witness :
    make_api_request
        [⟨true, 429, "Rate limited. ".toList ++ tryAgainSep
            ++ (digitChars 5 ++ ' ' :: "seconds.".toList)⟩,
         ⟨false, 200, []⟩]
        "my-id" "my-key" "Line/Mode/tube" [("x", "1")]
      = some
          ([("https://api.tfl.gov.uk/" ++ "Line/Mode/tube",
              [("x", "1")].foldl (fun m p => dictSet m p.1 p.2)
                [("app_id", "my-id"), ("app_key", "my-key")]),
            ("https://api.tfl.gov.uk/" ++ "Line/Mode/tube",
              [("x", "1")].foldl (fun m p => dictSet m p.1 p.2)
                [("app_id", "my-id"), ("app_key", "my-key")])],
           [5], ⟨false, 200, []⟩) :=
  C8_make_api_request_retry "my-id" "my-key" "Line/Mode/tube" [("x", "1")]
    "Rate limited. ".toList "seconds.".toList 5 ⟨false, 200, []⟩
    (by decide) (Or.inl rfl)

/-! ## Longest-path search: measure and extension-relation lemmas
(claims C1, C2, C9) -/

theorem not_contains_iff (l : List TubeStationAdjacency) (a : TubeStationAdjacency) :
    (!(l.contains a)) = true ↔ a ∉ l := by
  rw [Bool.not_eq_true', Bool.eq_false_iff]
  exact not_congr List.elem_iff

theorem mem_allValues_iff (adjacencies : AdjMap) (r : TubeStationAdjacency) :
    r ∈ allValues adjacencies
      ↔ ∃ p ∈ adjacencies, ∃ q ∈ p.2, (q.2 : TubeStationAdjacency) = r := by
  unfold allValues
  rw [List.mem_flatten]
  constructor
  · rintro ⟨y, hy, hr⟩
    rw [List.mem_map] at hy
    obtain ⟨p, hp, hpy⟩ := hy
    subst hpy
    rw [List.mem_map] at hr
    obtain ⟨q, hq, hqr⟩ := hr
    exact ⟨p, hp, q, hq, hqr⟩
  · rintro ⟨p, hp, q, hq, hqr⟩
    refine ⟨p.2.map (fun q => q.2), List.mem_map.mpr ⟨p, hp, rfl⟩, ?_⟩
    exact List.mem_map.mpr ⟨q, hq, hqr⟩

theorem innerValues_subset_allValues (adjacencies : AdjMap) (k : String)
    (r : TubeStationAdjacency) (hr : r ∈ innerValues adjacencies k) :
    r ∈ allValues adjacencies := by
  unfold innerValues at hr
  cases hl : List.lookup k adjacencies with
  | none => rw [hl] at hr; simp at hr
  | some inner =>
      rw [hl] at hr
      simp only [Option.getD_some] at hr
      rw [List.mem_map] at hr
      obtain ⟨q, hq, hqr⟩ := hr
      exact (mem_allValues_iff adjacencies r).mpr
        ⟨(k, inner), lookup_mem hl, q, hq, hqr⟩

theorem ValsLeft_lt (adjacencies : AdjMap) (path : List TubeStationAdjacency)
    (a : TubeStationAdjacency) (ha : a ∈ allValues adjacencies) (hnp : a ∉ path) :
    ValsLeft adjacencies (path ++ [a]) < ValsLeft adjacencies path := by
  unfold ValsLeft
  have hcong : ((allValues adjacencies).dedup).filter
        (fun v => decide (v ∉ path ++ [a]))
      = (((allValues adjacencies).dedup).filter
          (fun v => decide (v ∉ path))).filter (fun v => decide (v ≠ a)) := by
    rw [List.filter_filter]
    apply List.filter_congr
    intro v _
    by_cases h1 : v ∈ path <;> by_cases h2 : v = a <;>
      simp [h1, h2, List.mem_append]
  rw [hcong]
  apply List.length_filter_lt_length_iff_exists.mpr
  refine ⟨a, ?_, ?_⟩
  · rw [List.mem_filter]
    exact ⟨List.mem_dedup.mpr ha, by simpa using hnp⟩
  · simp

theorem Reaches_trans {adjacencies : AdjMap}
    {p q s : List TubeStationAdjacency} (h1 : Reaches adjacencies p q)
    (h2 : Reaches adjacencies q s) : Reaches adjacencies p s := by
  induction h2 with
  | refl => exact h1
  | step _ hlast hmem hnot ih => exact Reaches.step ih hlast hmem hnot

theorem Reaches_ne_nil {adjacencies : AdjMap}
    {p q : List TubeStationAdjacency} (hp : p ≠ [])
    (h : Reaches adjacencies p q) : q ≠ [] := by
  induction h with
  | refl => exact hp
  | step _ _ _ _ => simp

theorem Reaches_length_le {adjacencies : AdjMap}
    {p q : List TubeStationAdjacency} (h : Reaches adjacencies p q) :
    p.length ≤ q.length := by
  induction h with
  | refl => exact le_rfl
  | step _ _ _ _ ih => simp only [List.length_append, List.length_cons]; omega

theorem Reaches_decomp {adjacencies : AdjMap}
    {p s : List TubeStationAdjacency} (h : Reaches adjacencies p s) :
    s = p ∨ ∃ last a, p.getLast? = some last
      ∧ a ∈ innerValues adjacencies last.station_b_id ∧ a ∉ p
      ∧ Reaches adjacencies (p ++ [a]) s := by
  induction h with
  | refl => exact Or.inl rfl
  | step hq hlast hmem hnot ih =>
      rename_i q lastq nxt
      right
      rcases ih with heq | ⟨last, a, h1, h2, h3, hreach⟩
      · subst heq
        exact ⟨lastq, nxt, hlast, hmem, hnot, Reaches.refl⟩
      · exact ⟨last, a, h1, h2, h3, Reaches.step hreach hlast hmem hnot⟩

theorem foldl_max_acc_le (l : List Nat) : ∀ a, a ≤ l.foldl Nat.max a := by
  induction l with
  | nil => intro a; exact le_rfl
  | cons y ys ih =>
      intro a
      rw [List.foldl_cons]
      exact le_trans (Nat.le_max_left a y) (ih _)

theorem foldl_max_le_of_mem {x : Nat} :
    ∀ (l : List Nat), x ∈ l → ∀ a, x ≤ l.foldl Nat.max a := by
  intro l
  induction l with
  | nil => intro hx; simp at hx
  | cons y ys ih =>
      intro hx a
      rw [List.foldl_cons]
      rcases List.mem_cons.mp hx with heq | hm
      · subst heq
        exact le_trans (Nat.le_max_right a x) (foldl_max_acc_le ys _)
      · exact ih hm _

theorem foldl_max_mem_or_acc (l : List Nat) :
    ∀ a, l.foldl Nat.max a ∈ l ∨ l.foldl Nat.max a = a := by
  induction l with
  | nil => intro a; exact Or.inr rfl
  | cons y ys ih =>
      intro a
      rw [List.foldl_cons]
      rcases ih (Nat.max a y) with h | h
      · exact Or.inl (List.mem_cons_of_mem _ h)
      · rw [h]
        rcases Nat.le_total a y with hle | hle
        · have hm : Nat.max a y = y := Nat.max_eq_right hle
          rw [hm]
          exact Or.inl (List.mem_cons_self _ _)
        · have hm : Nat.max a y = a := Nat.max_eq_left hle
          rw [hm]
          exact Or.inr rfl

theorem foldl_max_attained {l : List Nat} (h : l ≠ []) :
    l.foldl Nat.max 0 ∈ l := by
  rcases foldl_max_mem_or_acc l 0 with hm | hm
  · exact hm
  · obtain ⟨x, hx⟩ := List.exists_mem_of_ne_nil l h
    have hle : x ≤ l.foldl Nat.max 0 := foldl_max_le_of_mem l hx 0
    rw [hm] at hle ⊢
    have : x = 0 := Nat.le_zero.mp hle
    rwa [← this]

theorem lpFuel_succ (adjacencies : AdjMap) (path : List TubeStationAdjacency)
    (fuel : Nat) :
    lpFuel adjacencies path (fuel + 1)
      = match ((match path.getLast? with
          | none => allValues adjacencies
          | some last => (innerValues adjacencies last.station_b_id).filter
              (fun nxt => !(path.contains nxt))).mapM
            (fun a => lpFuel adjacencies (path ++ [a]) fuel)) with
        | none => none
        | some results =>
            some ((path :: results.flatten).filter
              (fun x => x.length
                  == ((path :: results.flatten).map List.length).foldl Nat.max 0)) :=
  rfl

theorem mem_candidates {adjacencies : AdjMap} {path : List TubeStationAdjacency}
    {a : TubeStationAdjacency}
    (ha : a ∈ (match path.getLast? with
      | none => allValues adjacencies
      | some last => (innerValues adjacencies last.station_b_id).filter
          (fun nxt => !(path.contains nxt)))) :
    a ∈ allValues adjacencies ∧ a ∉ path := by
  cases hl : path.getLast? with
  | none =>
      rw [hl] at ha
      have ha' : a ∈ allValues adjacencies := ha
      have hp : path = [] := List.getLast?_eq_none_iff.mp hl
      subst hp
      exact ⟨ha', by simp⟩
  | some last =>
      rw [hl] at ha
      have ha' : a ∈ (innerValues adjacencies last.station_b_id).filter
          (fun nxt => !(path.contains nxt)) := ha
      rw [List.mem_filter] at ha'
      exact ⟨innerValues_subset_allValues _ _ _ ha'.1,
        (not_contains_iff _ _).mp ha'.2⟩

theorem mapM_some_of_forall {α β : Type} :
    ∀ (l : List α) (f : α → Option β), (∀ a ∈ l, (f a).isSome = true) →
      ∃ ys, l.mapM f = some ys
        ∧ List.Forall₂ (fun a y => f a = some y) l ys := by
  intro l f
  induction l with
  | nil => intro _; exact ⟨[], rfl, List.Forall₂.nil⟩
  | cons a l ih =>
      intro h
      obtain ⟨y, hy⟩ := Option.isSome_iff_exists.mp (h a (List.mem_cons_self _ _))
      obtain ⟨ys, hys, hfa⟩ := ih (fun x hx => h x (List.mem_cons_of_mem _ hx))
      refine ⟨y :: ys, ?_, List.Forall₂.cons hy hfa⟩
      rw [List.mapM_cons, hy, hys]
      rfl

theorem mapM_congr_option {α β : Type} :
    ∀ (l : List α) (f g : α → Option β), (∀ a ∈ l, f a = g a) →
      l.mapM f = l.mapM g := by
  intro l f g
  induction l with
  | nil => intro _; rfl
  | cons a l ih =>
      intro h
      rw [List.mapM_cons, List.mapM_cons, h a (List.mem_cons_self _ _),
        ih (fun x hx => h x (List.mem_cons_of_mem _ hx))]

theorem forall₂_mem_right {α β : Type} {R : α → β → Prop} :
    ∀ {l : List α} {ys : List β}, List.Forall₂ R l ys →
      ∀ y ∈ ys, ∃ a ∈ l, R a y := by
  intro l ys h
  induction h with
  | nil => intro y hy; simp at hy
  | cons hR _ ih =>
      intro y hy
      rcases List.mem_cons.mp hy with heq | hm
      · subst heq
        exact ⟨_, List.mem_cons_self _ _, hR⟩
      · obtain ⟨a, ha, hay⟩ := ih y hm
        exact ⟨a, List.mem_cons_of_mem _ ha, hay⟩

theorem forall₂_mem_left {α β : Type} {R : α → β → Prop} :
    ∀ {l : List α} {ys : List β}, List.Forall₂ R l ys →
      ∀ a ∈ l, ∃ y ∈ ys, R a y := by
  intro l ys h
  induction h with
  | nil => intro a ha; simp at ha
  | cons hR _ ih =>
      intro a ha
      rcases List.mem_cons.mp ha with heq | hm
      · subst heq
        exact ⟨_, List.mem_cons_self _ _, hR⟩
      · obtain ⟨y, hy, hay⟩ := ih a hm
        exact ⟨y, List.mem_cons_of_mem _ hy, hay⟩

theorem lpFuel_isSome (adjacencies : AdjMap) :
    ∀ (fuel : Nat) (path : List TubeStationAdjacency),
      ValsLeft adjacencies path < fuel →
      (lpFuel adjacencies path fuel).isSome = true := by
  intro fuel
  induction fuel using Nat.strong_induction_on with
  | _ fuel ih =>
      intro path hf
      cases fuel with
      | zero => omega
      | succ f =>
          rw [lpFuel_succ]
          obtain ⟨ys, hys, _⟩ := mapM_some_of_forall _
            (fun a => lpFuel adjacencies (path ++ [a]) f)
            (fun a ha => by
              obtain ⟨hav, hnp⟩ := mem_candidates ha
              exact ih f (by omega) (path ++ [a])
                (by have := ValsLeft_lt adjacencies path a hav hnp; omega))
          rw [hys]
          rfl

theorem lpFuel_fuel_irrel (adjacencies : AdjMap) :
    ∀ (fuel₁ fuel₂ : Nat) (path : List TubeStationAdjacency),
      ValsLeft adjacencies path < fuel₁ → ValsLeft adjacencies path < fuel₂ →
      lpFuel adjacencies path fuel₁ = lpFuel adjacencies path fuel₂ := by
  intro fuel₁
  induction fuel₁ using Nat.strong_induction_on with
  | _ fuel₁ ih =>
      intro fuel₂ path h1 h2
      cases fuel₁ with
      | zero => omega
      | succ f₁ =>
          cases fuel₂ with
          | zero => omega
          | succ f₂ =>
              rw [lpFuel_succ, lpFuel_succ]
              rw [mapM_congr_option _
                (fun a => lpFuel adjacencies (path ++ [a]) f₁)
                (fun a => lpFuel adjacencies (path ++ [a]) f₂)
                (fun a ha => by
                  obtain ⟨hav, hnp⟩ := mem_candidates ha
                  have hlt := ValsLeft_lt adjacencies path a hav hnp
                  exact ih f₁ (by omega) f₂ (path ++ [a]) (by omega) (by omega))]

theorem lpFuel_spec (adjacencies : AdjMap) :
    ∀ (fuel : Nat) (path : List TubeStationAdjacency),
      ValsLeft adjacencies path < fuel → path ≠ [] →
      ∃ res, lpFuel adjacencies path fuel = some res ∧ res ≠ [] ∧
        ∀ q, (q ∈ res ↔ (Reaches adjacencies path q ∧
          ∀ r, Reaches adjacencies path r → r.length ≤ q.length)) := by
  intro fuel
  induction fuel using Nat.strong_induction_on with
  | _ fuel ih =>
      intro path hf hpne
      cases fuel with
      | zero => omega
      | succ f => ?_
      cases hlast : path.getLast? with
      | none => exact absurd (List.getLast?_eq_none_iff.mp hlast) hpne
      | some last => ?_
      set cands := (innerValues adjacencies last.station_b_id).filter
        (fun nxt => !(path.contains nxt)) with hcandsdef
      have hmeas : ∀ a ∈ cands, ValsLeft adjacencies (path ++ [a]) < f := by
        intro a ha
        rw [hcandsdef, List.mem_filter] at ha
        have := ValsLeft_lt adjacencies path a
          (innerValues_subset_allValues _ _ _ ha.1)
          ((not_contains_iff _ _).mp ha.2)
        omega
      obtain ⟨ys, hys, hfa⟩ := mapM_some_of_forall cands
        (fun a => lpFuel adjacencies (path ++ [a]) f)
        (fun a ha => lpFuel_isSome adjacencies f (path ++ [a]) (hmeas a ha))
      have hstep1 : ∀ a ∈ cands, Reaches adjacencies path (path ++ [a]) := by
        intro a ha
        rw [hcandsdef, List.mem_filter] at ha
        exact Reaches.step Reaches.refl hlast ha.1 ((not_contains_iff _ _).mp ha.2)
      have hsub : ∀ a ∈ cands, ∃ y, y ∈ ys
          ∧ lpFuel adjacencies (path ++ [a]) f = some y ∧ y ≠ []
          ∧ ∀ q, (q ∈ y ↔ (Reaches adjacencies (path ++ [a]) q ∧
              ∀ r, Reaches adjacencies (path ++ [a]) r → r.length ≤ q.length)) := by
        intro a ha
        obtain ⟨y, hy, hfaeq⟩ := forall₂_mem_left hfa a ha
        obtain ⟨res', hres', hne', hchar'⟩ :=
          ih f (by omega) (path ++ [a]) (hmeas a ha) (by simp)
        rw [hfaeq] at hres'
        injection hres' with hres'
        subst hres'
        exact ⟨y, hy, hfaeq, hne', hchar'⟩
      have hsubR : ∀ y ∈ ys, ∃ a ∈ cands,
          (y ≠ [] ∧ ∀ q, (q ∈ y ↔ (Reaches adjacencies (path ++ [a]) q ∧
              ∀ r, Reaches adjacencies (path ++ [a]) r → r.length ≤ q.length))) := by
        intro y hy
        obtain ⟨a, ha, hfaeq⟩ := forall₂_mem_right hfa y hy
        obtain ⟨res', hres', hne', hchar'⟩ :=
          ih f (by omega) (path ++ [a]) (hmeas a ha) (by simp)
        rw [hfaeq] at hres'
        injection hres' with hres'
        subst hres'
        exact ⟨a, ha, hne', hchar'⟩
      have hys' : ((innerValues adjacencies last.station_b_id).filter
            (fun nxt => !(path.contains nxt))).mapM
            (fun a => lpFuel adjacencies (path ++ [a]) f) = some ys := hys
      have hstep : lpFuel adjacencies path (f + 1)
          = some ((path :: ys.flatten).filter
              (fun x => x.length
                == ((path :: ys.flatten).map List.length).foldl Nat.max 0)) := by
        rw [lpFuel_succ, hlast]
        dsimp only
        rw [hys']
      have hsound : ∀ q ∈ path :: ys.flatten, Reaches adjacencies path q := by
        intro q hq
        rcases List.mem_cons.mp hq with heq | hq
        · subst heq; exact Reaches.refl
        · rw [List.mem_flatten] at hq
          obtain ⟨y, hy, hqy⟩ := hq
          obtain ⟨a, ha, _, hchar⟩ := hsubR y hy
          exact Reaches_trans (hstep1 a ha) ((hchar q).mp hqy).1
      have hdom : ∀ r, Reaches adjacencies path r →
          ∃ m ∈ path :: ys.flatten, r.length ≤ m.length := by
        intro r hr
        rcases Reaches_decomp hr with heq | ⟨last', a, h1, h2, h3, hreach⟩
        · subst heq
          exact ⟨r, List.mem_cons_self _ _, le_rfl⟩
        · rw [hlast] at h1
          injection h1 with h1
          subst h1
          have hacands : a ∈ cands := by
            rw [hcandsdef, List.mem_filter]
            exact ⟨h2, (not_contains_iff _ _).mpr h3⟩
          obtain ⟨y, hy, _, hyne, hchar⟩ := hsub a hacands
          obtain ⟨m, hm⟩ := List.exists_mem_of_ne_nil y hyne
          have hmprops := (hchar m).mp hm
          refine ⟨m, List.mem_cons_of_mem _ (List.mem_flatten.mpr ⟨y, hy, hm⟩), ?_⟩
          exact hmprops.2 r hreach
      have hle : ∀ m ∈ path :: ys.flatten,
          m.length ≤ ((path :: ys.flatten).map List.length).foldl Nat.max 0 := by
        intro m hm
        exact foldl_max_le_of_mem _ (List.mem_map_of_mem List.length hm) 0
      have hatt : ∃ m ∈ path :: ys.flatten,
          m.length = ((path :: ys.flatten).map List.length).foldl Nat.max 0 := by
        have hmapne : ((path :: ys.flatten).map List.length) ≠ [] := by simp
        have h1 := foldl_max_attained hmapne
        rw [List.mem_map] at h1
        obtain ⟨m, hm, hmlen⟩ := h1
        exact ⟨m, hm, hmlen⟩
      obtain ⟨m0, hm0mem, hm0len⟩ := hatt
      refine ⟨_, hstep, ?_, ?_⟩
      · have hm0res : m0 ∈ (path :: ys.flatten).filter
            (fun x => x.length
              == ((path :: ys.flatten).map List.length).foldl Nat.max 0) := by
          rw [List.mem_filter]
          exact ⟨hm0mem, by simp [hm0len]⟩
        exact List.ne_nil_of_mem hm0res
      · intro q
        constructor
        · intro hq
          rw [List.mem_filter] at hq
          obtain ⟨hqAP, hqlen⟩ := hq
          rw [beq_iff_eq] at hqlen
          refine ⟨hsound q hqAP, ?_⟩
          intro r hr
          obtain ⟨m, hmAP, hrm⟩ := hdom r hr
          calc r.length ≤ m.length := hrm
            _ ≤ _ := hle m hmAP
            _ = q.length := hqlen.symm
        · rintro ⟨hreach, hmax⟩
          have hqlen : q.length
              = ((path :: ys.flatten).map List.length).foldl Nat.max 0 := by
            apply Nat.le_antisymm
            · obtain ⟨m, hmAP, hrm⟩ := hdom q hreach
              calc q.length ≤ m.length := hrm
                _ ≤ _ := hle m hmAP
            · rw [← hm0len]
              exact hmax m0 (hsound m0 hm0mem)
          have hqAP : q ∈ path :: ys.flatten := by
            rcases Reaches_decomp hreach with heq | ⟨last', a, h1, h2, h3, hreach'⟩
            · subst heq; exact List.mem_cons_self _ _
            · rw [hlast] at h1
              injection h1 with h1
              subst h1
              have hacands : a ∈ cands := by
                rw [hcandsdef, List.mem_filter]
                exact ⟨h2, (not_contains_iff _ _).mpr h3⟩
              obtain ⟨y, hy, _, _, hchar⟩ := hsub a hacands
              refine List.mem_cons_of_mem _ (List.mem_flatten.mpr ⟨y, hy, ?_⟩)
              rw [hchar q]
              refine ⟨hreach', ?_⟩
              intro r hr
              exact hmax r (Reaches_trans (hstep1 a hacands) hr)
          rw [List.mem_filter]
          exact ⟨hqAP, by simp [hqlen]⟩

theorem mem_innerValues_station_a (adjacencies : AdjMap)
    (hagree : Agreement adjacencies) (k : String) (r : TubeStationAdjacency)
    (hr : r ∈ innerValues adjacencies k) : r.station_a_id = k := by
  unfold innerValues at hr
  cases hl : List.lookup k adjacencies with
  | none => rw [hl] at hr; simp at hr
  | some inner =>
      rw [hl] at hr
      simp only [Option.getD_some] at hr
      rw [List.mem_map] at hr
      obtain ⟨qp, hqp, hqpr⟩ := hr
      have hag := hagree (k, inner) (lookup_mem hl) qp hqp
      rw [hqpr] at hag
      exact hag.1

theorem Reaches_simple (adjacencies : AdjMap) (hagree : Agreement adjacencies)
    (a : TubeStationAdjacency) (ha : a ∈ allValues adjacencies) :
    ∀ q, Reaches adjacencies [a] q →
      isSimplePath adjacencies q ∧ q ≠ [] ∧ q.head? = some a := by
  intro q hq
  induction hq with
  | refl =>
      refine ⟨⟨?_, List.chain'_singleton a, List.nodup_singleton a⟩, by simp, rfl⟩
      intro r hr
      rw [List.mem_singleton] at hr
      subst hr
      exact ha
  | step hq hlast hmem hnot ih =>
      rename_i q' lastq nxt
      obtain ⟨⟨helem, hchain, hnodup⟩, hne, hhead⟩ := ih
      have hnxt_a : nxt.station_a_id = lastq.station_b_id :=
        mem_innerValues_station_a adjacencies hagree _ nxt hmem
      refine ⟨⟨?_, ?_, ?_⟩, by simp, ?_⟩
      · intro r hr
        rcases List.mem_append.mp hr with h | h
        · exact helem r h
        · rw [List.mem_singleton] at h
          subst h
          exact innerValues_subset_allValues _ _ _ hmem
      · rw [List.chain'_append]
        refine ⟨hchain, List.chain'_singleton nxt, ?_⟩
        intro x hx y hy
        rw [hlast] at hx
        rw [Option.mem_some_iff] at hx
        subst hx
        simp only [List.head?_cons, Option.mem_some_iff] at hy
        subst hy
        exact hnxt_a
      · rw [List.nodup_append]
        refine ⟨hnodup, List.nodup_singleton nxt, ?_⟩
        intro x hx hx'
        rw [List.mem_singleton] at hx'
        subst hx'
        exact hnot hx
      · cases q' with
        | nil => exact absurd rfl hne
        | cons c t => simpa using hhead

theorem simple_reaches (adjacencies : AdjMap)
    (hOuter : (adjacencies.map Prod.fst).Nodup) (hagree : Agreement adjacencies) :
    ∀ (q : List TubeStationAdjacency), isSimplePath adjacencies q →
      ∀ a, q.head? = some a → Reaches adjacencies [a] q := by
  intro q
  induction q using List.reverseRecOn with
  | nil => intro _ a ha; simp at ha
  | append_singleton q' x ih =>
      intro hsp a hhead
      obtain ⟨helem, hchain, hnodup⟩ := hsp
      by_cases hqnil : q' = []
      · subst hqnil
        simp only [List.nil_append, List.head?_cons, Option.some.injEq] at hhead
        subst hhead
        exact Reaches.refl
      · have hsp' : isSimplePath adjacencies q' := by
          refine ⟨fun r hr => helem r (List.mem_append_left _ hr),
            (List.chain'_append.mp hchain).1,
            hnodup.sublist (List.sublist_append_left _ _)⟩
        have hhead' : q'.head? = some a := by
          cases q' with
          | nil => exact absurd rfl hqnil
          | cons c t => simpa using hhead
        have hr' : Reaches adjacencies [a] q' := ih hsp' a hhead'
        obtain ⟨lastq, hlastq⟩ : ∃ l, q'.getLast? = some l := by
          cases hl : q'.getLast? with
          | none => exact absurd (List.getLast?_eq_none_iff.mp hl) hqnil
          | some l => exact ⟨l, rfl⟩
        have hx_av : x ∈ allValues adjacencies := helem x (by simp)
        obtain ⟨p, hp, qe, hqe, hqex⟩ := (mem_allValues_iff _ _).mp hx_av
        have hag := hagree p hp qe hqe
        have hpa : x.station_a_id = p.1 := by
          rw [← hag.1, hqex]
        have hchain_junction : x.station_a_id = lastq.station_b_id := by
          rw [List.chain'_append] at hchain
          refine hchain.2.2 lastq ?_ x ?_
          · rw [hlastq]; rfl
          · rfl
        have hlook : List.lookup p.1 adjacencies = some p.2 :=
          mem_lookup hOuter hp
        have hxinner : x ∈ innerValues adjacencies lastq.station_b_id := by
          unfold innerValues
          rw [show lastq.station_b_id = p.1 from by rw [← hchain_junction, hpa]]
          rw [hlook]
          simp only [Option.getD_some]
          exact List.mem_map.mpr ⟨qe, hqe, hqex⟩
        have hxnot : x ∉ q' := by
          rw [List.nodup_append] at hnodup
          intro hmem
          exact hnodup.2.2 hmem (by simp)
        exact Reaches.step hr' hlastq hxinner hxnot

/-- Claim C1 (amended): for every well-formed adjacency mapping (unique dict
keys) whose records agree with their storage keys and whose records' to-ids
are all keys of the mapping, `longest_paths` run from the empty path returns
exactly the simple paths of maximal length: a member is a chained sequence
of records of the map without a repeated record value, of length at least
that of every such sequence, and conversely; on an edgeless mapping the
result is exactly the one empty path. -/
theorem C1_longest_paths_spec (adjacencies : AdjMap)
    (hOuter : (adjacencies.map Prod.fst).Nodup)
    (hInner : ∀ p ∈ adjacencies, ((p.2).map Prod.fst).Nodup)
    (hagree : Agreement adjacencies)
    (hclosed : ∀ r ∈ allValues adjacencies,
      r.station_b_id ∈ adjacencies.map Prod.fst) :
    (∀ q, q ∈ longest_paths adjacencies []
        ↔ (isSimplePath adjacencies q
            ∧ ∀ r, isSimplePath adjacencies r → r.length ≤ q.length))
    ∧ (allValues adjacencies = [] → longest_paths adjacencies [] = [[]]) := by
  have hVL_nil : ValsLeft adjacencies [] ≤ numEntries adjacencies := by
    unfold ValsLeft numEntries
    calc ((allValues adjacencies).dedup.filter _).length
        ≤ (allValues adjacencies).dedup.length := List.length_filter_le _ _
      _ ≤ (allValues adjacencies).length :=
          (List.dedup_sublist (allValues adjacencies)).length_le
  have hmeasSeed : ∀ a ∈ allValues adjacencies,
      ValsLeft adjacencies ([] ++ [a]) < numEntries adjacencies := by
    intro a ha
    have h1 := ValsLeft_lt adjacencies [] a ha (by simp)
    omega
  obtain ⟨ys, hys, hfa⟩ := mapM_some_of_forall (allValues adjacencies)
    (fun a => lpFuel adjacencies ([] ++ [a]) (numEntries adjacencies))
    (fun a ha => lpFuel_isSome adjacencies _ ([] ++ [a]) (hmeasSeed a ha))
  have hcomp : lpFuel adjacencies [] (numEntries adjacencies + 1)
      = some ((([] : List TubeStationAdjacency) :: ys.flatten).filter
          (fun x => x.length
            == ((([] : List TubeStationAdjacency) :: ys.flatten).map
                List.length).foldl Nat.max 0)) := by
    rw [lpFuel_succ, List.getLast?_nil]
    dsimp only
    rw [hys]
  have hlp : longest_paths adjacencies []
      = ((([] : List TubeStationAdjacency) :: ys.flatten).filter
          (fun x => x.length
            == ((([] : List TubeStationAdjacency) :: ys.flatten).map
                List.length).foldl Nat.max 0)) := by
    unfold longest_paths
    rw [hcomp]
    rfl
  have hsub : ∀ a ∈ allValues adjacencies, ∃ y, y ∈ ys ∧ y ≠ []
      ∧ ∀ q, (q ∈ y ↔ (Reaches adjacencies [a] q ∧
          ∀ r, Reaches adjacencies [a] r → r.length ≤ q.length)) := by
    intro a ha
    obtain ⟨y, hy, hfaeq⟩ := forall₂_mem_left hfa a ha
    obtain ⟨res', hres', hne', hchar'⟩ := lpFuel_spec adjacencies
      (numEntries adjacencies) [a] (hmeasSeed a ha) (by simp)
    have heq : some y = some res' := hfaeq.symm.trans hres'
    injection heq with heq
    subst heq
    exact ⟨y, hy, hne', hchar'⟩
  have hsubR : ∀ y ∈ ys, ∃ a, a ∈ allValues adjacencies
      ∧ ∀ q, (q ∈ y ↔ (Reaches adjacencies [a] q ∧
          ∀ r, Reaches adjacencies [a] r → r.length ≤ q.length)) := by
    intro y hy
    obtain ⟨a, ha, hfaeq⟩ := forall₂_mem_right hfa y hy
    obtain ⟨res', hres', hne', hchar'⟩ := lpFuel_spec adjacencies
      (numEntries adjacencies) [a] (hmeasSeed a ha) (by simp)
    have heq : some y = some res' := hfaeq.symm.trans hres'
    injection heq with heq
    subst heq
    exact ⟨a, ha, hchar'⟩
  have hnil_simple : isSimplePath adjacencies [] :=
    ⟨by simp, List.chain'_nil, List.nodup_nil⟩
  have hsound : ∀ q ∈ ([] : List TubeStationAdjacency) :: ys.flatten,
      isSimplePath adjacencies q := by
    intro q hq
    rcases List.mem_cons.mp hq with heq | hq
    · subst heq
      exact hnil_simple
    · rw [List.mem_flatten] at hq
      obtain ⟨y, hy, hqy⟩ := hq
      obtain ⟨a, ha, hchar⟩ := hsubR y hy
      exact (Reaches_simple adjacencies hagree a ha q ((hchar q).mp hqy).1).1
  have hdom : ∀ r, isSimplePath adjacencies r →
      ∃ m ∈ ([] : List TubeStationAdjacency) :: ys.flatten,
        r.length ≤ m.length := by
    intro r hr
    cases r with
    | nil => exact ⟨[], List.mem_cons_self _ _, le_rfl⟩
    | cons c t =>
        have hc : c ∈ allValues adjacencies := hr.1 c (List.mem_cons_self _ _)
        have hreach : Reaches adjacencies [c] (c :: t) :=
          simple_reaches adjacencies hOuter hagree (c :: t) hr c rfl
        obtain ⟨y, hy, hyne, hchar⟩ := hsub c hc
        obtain ⟨m, hm⟩ := List.exists_mem_of_ne_nil y hyne
        refine ⟨m, List.mem_cons_of_mem _ (List.mem_flatten.mpr ⟨y, hy, hm⟩), ?_⟩
        exact ((hchar m).mp hm).2 _ hreach
  have hle : ∀ m ∈ ([] : List TubeStationAdjacency) :: ys.flatten,
      m.length ≤ (((([] : List TubeStationAdjacency) :: ys.flatten)).map
        List.length).foldl Nat.max 0 :=
    fun m hm => foldl_max_le_of_mem _ (List.mem_map_of_mem List.length hm) 0
  have hatt : ∃ m ∈ ([] : List TubeStationAdjacency) :: ys.flatten,
      m.length = (((([] : List TubeStationAdjacency) :: ys.flatten)).map
        List.length).foldl Nat.max 0 := by
    have hmapne : ((([] : List TubeStationAdjacency) :: ys.flatten).map
        List.length) ≠ [] := by simp
    have h1 := foldl_max_attained hmapne
    rw [List.mem_map] at h1
    obtain ⟨m, hm, hmlen⟩ := h1
    exact ⟨m, hm, hmlen⟩
  obtain ⟨m0, hm0mem, hm0len⟩ := hatt
  constructor
  · intro q
    rw [hlp, List.mem_filter]
    constructor
    · rintro ⟨hqAP, hqlen⟩
      rw [beq_iff_eq] at hqlen
      refine ⟨hsound q hqAP, ?_⟩
      intro r hr
      obtain ⟨m, hmAP, hrm⟩ := hdom r hr
      calc r.length ≤ m.length := hrm
        _ ≤ _ := hle m hmAP
        _ = q.length := hqlen.symm
    · rintro ⟨hsp, hmax⟩
      have hqlen : q.length = ((((
          [] : List TubeStationAdjacency) :: ys.flatten)).map
            List.length).foldl Nat.max 0 := by
        apply Nat.le_antisymm
        · obtain ⟨m, hmAP, hrm⟩ := hdom q hsp
          exact le_trans hrm (hle m hmAP)
        · rw [← hm0len]
          exact hmax m0 (hsound m0 hm0mem)
      refine ⟨?_, by simp [hqlen]⟩
      cases q with
      | nil => exact List.mem_cons_self _ _
      | cons c t =>
          have hc : c ∈ allValues adjacencies := hsp.1 c (List.mem_cons_self _ _)
          have hreach : Reaches adjacencies [c] (c :: t) :=
            simple_reaches adjacencies hOuter hagree (c :: t) hsp c rfl
          obtain ⟨y, hy, hyne, hchar⟩ := hsub c hc
          refine List.mem_cons_of_mem _ (List.mem_flatten.mpr ⟨y, hy, ?_⟩)
          rw [hchar (c :: t)]
          refine ⟨hreach, ?_⟩
          intro r hr
          exact hmax r
            (Reaches_simple adjacencies hagree c hc r hr).1
  · intro hAV
    rw [hlp]
    rw [hAV] at hfa
    cases hfa
    simp

/-- Counterexample to C1 as stated: `mismatchedAdj` satisfies the claim's
invariant (every record's to-id is a key of the mapping), yet the search
returns the two-record sequence Z→A, C→A, which is not a chained simple
path (the second record's from-id "C" differs from the first's to-id "A"),
because the code chains by dict position, not by the records' fields. -/
theorem C1_counterexample :
    (∀ r ∈ allValues mismatchedAdj, r.station_b_id ∈ mismatchedAdj.map Prod.fst)
    ∧ [(⟨"L", "Z", "A"⟩ : TubeStationAdjacency), ⟨"L", "C", "A"⟩]
        ∈ longest_paths mismatchedAdj []
    ∧ ¬ isSimplePath mismatchedAdj
        [(⟨"L", "Z", "A"⟩ : TubeStationAdjacency), ⟨"L", "C", "A"⟩] :=
  ⟨by decide, by decide, by decide⟩

/-- Witness for C1 on the two-station bidirectional graph: the returned path
B→C, C→B is a maximal simple path. -/
theorem C1_witness :
    isSimplePath [("B", [("C", (⟨"X", "B", "C"⟩ : TubeStationAdjacency))]),
        ("C", [("B", ⟨"X", "C", "B"⟩)])]
      [⟨"X", "B", "C"⟩, ⟨"X", "C", "B"⟩]
    ∧ ∀ r, isSimplePath [("B", [("C", (⟨"X", "B", "C"⟩ : TubeStationAdjacency))]),
        ("C", [("B", ⟨"X", "C", "B"⟩)])] r →
        r.length ≤ ([(⟨"X", "B", "C"⟩ : TubeStationAdjacency),
          ⟨"X", "C", "B"⟩]).length :=
  ((C1_longest_paths_spec
      [("B", [("C", (⟨"X", "B", "C"⟩ : TubeStationAdjacency))]),
       ("C", [("B", ⟨"X", "C", "B"⟩)])]
      (by decide) (by decide) (by decide) (by decide)).1
    [⟨"X", "B", "C"⟩, ⟨"X", "C", "B"⟩]).mp (by decide)

/-- Claim C9: the fueled search stabilizes once the fuel exceeds the number
of directed adjacency records: every recursive call extends the path by one
unused record, so depth is bounded by that count, and with any larger fuel
the computation returns (never exhausts its fuel) with the same value
`longest_paths` denotes — for every map and every starting path. -/
theorem C9_longest_paths_terminates (adjacencies : AdjMap)
    (path : List TubeStationAdjacency) (fuel : Nat)
    (hfuel : numEntries adjacencies < fuel) :
    lpFuel adjacencies path fuel = some (longest_paths adjacencies path) := by
  have hVL : ValsLeft adjacencies path ≤ numEntries adjacencies := by
    unfold ValsLeft numEntries
    calc ((allValues adjacencies).dedup.filter _).length
        ≤ (allValues adjacencies).dedup.length := List.length_filter_le _ _
      _ ≤ (allValues adjacencies).length :=
          (List.dedup_sublist (allValues adjacencies)).length_le
  have hirrel := lpFuel_fuel_irrel adjacencies fuel
    (numEntries adjacencies + 1) path (by omega) (by omega)
  have hsome := lpFuel_isSome adjacencies
    (numEntries adjacencies + 1) path (by omega)
  obtain ⟨r, hr⟩ := Option.isSome_iff_exists.mp hsome
  rw [hirrel, hr]
  unfold longest_paths
  rw [hr]
  rfl

/-- Witness for C9 on the scenario graph's adjacency map with fuel two above
the record count. -/
theorem C9_witness :
    numEntries scenarioGraph.adjacencies
        < numEntries scenarioGraph.adjacencies + 2
    ∧ lpFuel scenarioGraph.adjacencies []
        (numEntries scenarioGraph.adjacencies + 2)
      = some (longest_paths scenarioGraph.adjacencies []) :=
  ⟨by omega,
   C9_longest_paths_terminates scenarioGraph.adjacencies [] _ (by omega)⟩

/-- Claim C2 (amended): on the scenario graph (stations A "cat", B "dog",
C "bee"; undirected edges A-B, B-C on line "X"), the banned word "c"
filters the graph down to stations B and C with the one bidirectional edge
B↔C, and the longest-path search on the filtered adjacencies returns
exactly two paths of LENGTH 2 — B→C,C→B and C→B,B→C — since riding the
reverse record of an edge is not a repeat of the forward record. -/
theorem C2_scenario_spec :
    filter_tube_graph scenarioGraph (banned_string_filter "c".toList)
      = some ⟨[("B", ⟨"B", "dog".toList, string_to_bit_field "dog".toList⟩),
               ("C", ⟨"C", "bee".toList, string_to_bit_field "bee".toList⟩)],
              [("B", [("C", ⟨"X", "B", "C"⟩)]),
               ("C", [("B", ⟨"X", "C", "B"⟩)])]⟩
    ∧ longest_paths [("B", [("C", (⟨"X", "B", "C"⟩ : TubeStationAdjacency))]),
        ("C", [("B", ⟨"X", "C", "B"⟩)])] []
      = [[⟨"X", "B", "C"⟩, ⟨"X", "C", "B"⟩],
         [⟨"X", "C", "B"⟩, ⟨"X", "B", "C"⟩]] :=
  ⟨by decide, by decide⟩

/-- Counterexample to C2 as stated: the single forward step B→C (length 1),
which the claim says is one of exactly two returned paths, is not in the
result at all — the search extends it with the reverse record C→B, so only
the two length-2 paths are maximal. -/
theorem C2_counterexample :
    [(⟨"X", "B", "C"⟩ : TubeStationAdjacency)]
      ∉ longest_paths (((filter_tube_graph scenarioGraph
          (banned_string_filter "c".toList)).getD ⟨[], []⟩).adjacencies) [] := by
  decide
